import Mathlib

/-
Verification of the LINE training engine (src/line_vector.cpp) against its
natural-language specification.

The C code is shallowly embedded: machine floating point (`real`/`double`)
is modelled by exact arithmetic (`ℚ` where the code is branch-heavy and we
want executability, `ℝ` where transcendental functions appear), machine
integers by `ℕ`/`ℤ` with explicit wraparound where it matters, and
uninitialized memory by an explicitly quantified junk parameter.
-/

namespace Rline

/-! ## Constants (lines 25-31 of line_vector.cpp) -/

def MAX_STRING : ℕ := 100

def hash_table_size : ℕ := 30000000

def neg_table_size : ℕ := 100000000

def sigmoid_table_size : ℕ := 1000

/-! ## Sigmoid lookup (InitSigmoidTable, lines 216-225; FastSigmoid, lines 227-233)

`sigmoid_table` is malloc'ed with `sigmoid_table_size + 1` entries but the
initialization loop only fills `k = 0 .. 999`; slot 1000 keeps whatever the
allocator returned.  We model that indeterminate content by the parameter
`junk`. -/

noncomputable def sigmoid (x : ℝ) : ℝ := 1 / (1 + Real.exp (-x))

noncomputable def sigmoid_table (junk : ℝ) (k : ℕ) : ℝ :=
  if k < sigmoid_table_size then
    sigmoid (2 * 6 * k / sigmoid_table_size - 6)
  else junk

noncomputable def FastSigmoid (junk : ℝ) (x : ℝ) : ℝ :=
  if 6 < x then 1
  else if x < -6 then 0
  else sigmoid_table junk (⌊(x + 6) * sigmoid_table_size / 6 / 2⌋.toNat)

/-! ## Worker thread counters and learning rate
(TrainLINEThread, lines 252-304; the rho block is lines 264-272)

The embedding updates inside the loop body do not touch the counters or
`rho`, so the counter/learning-rate skeleton is modelled on its own; the
gradient work is modelled separately below.  Arithmetic on `rho` is exact
(`ℚ`), faithful to the formulas of lines 270-271. -/

def recomputeRho (init_rho : ℚ) (total_samples current_sample_count : ℕ) : ℚ :=
  let r := init_rho * (1 - (current_sample_count : ℚ) / ((total_samples : ℚ) + 1))
  if r < init_rho * 0.0001 then init_rho * 0.0001 else r

structure WorkerState where
  count : ℕ
  last_count : ℕ
  current_sample_count : ℕ
  rho : ℚ

/-- One iteration of the `while (1)` body after the exit test: the
progress/rho block (lines 264-272) followed by `count++` (line 300). -/
def TrainLINEThreadStep (init_rho : ℚ) (total_samples : ℕ) (s : WorkerState) :
    WorkerState :=
  if 10000 < s.count - s.last_count then
    let csc := s.current_sample_count + (s.count - s.last_count)
    { count := s.count + 1
      last_count := s.count
      current_sample_count := csc
      rho := recomputeRho init_rho total_samples csc }
  else
    { s with count := s.count + 1 }

/-- State at thread start: `count = 0`, `last_count = 0` (line 255),
`current_sample_count = 0` (line 391), `rho = init_rho` (line 395). -/
def initialWorkerState (init_rho : ℚ) : WorkerState :=
  { count := 0, last_count := 0, current_sample_count := 0, rho := init_rho }

/-- The worker loop (lines 259-301) with the exit test of line 262; returns
the final state together with the number of executed body iterations. -/
def TrainLINEThreadLoop (init_rho : ℚ) (total_samples num_threads : ℕ)
    (s : WorkerState) : WorkerState × ℕ :=
  if total_samples / num_threads + 2 < s.count then (s, 0)
  else
    let r := TrainLINEThreadLoop init_rho total_samples num_threads
      (TrainLINEThreadStep init_rho total_samples s)
    (r.1, r.2 + 1)
termination_by total_samples / num_threads + 3 - s.count
decreasing_by
  simp only [TrainLINEThreadStep]
  split <;> simp <;> omega

/-! ## Allocation-failure control flow (TrainLINEMain, lines 382-443)

The twelve allocations the claim lists are modelled by an oracle of
success bits.  `VectorReadData` (319-324), `InitAliasTable` (121-136) and
`InitVector` (186, 191) set `malloc_exit` and the main routine returns at
lines 417/419/421; the `InitNegTable` (201) and `InitSigmoidTable` (219)
mallocs are never checked and their fill loops immediately store through
the returned pointer, which on failure is a null-pointer write: the run
dies there (modelled as `.crash`), still before `pthread_create`
(line 435) and before `VectorOutput` (line 442). -/

inductive SetupOutcome where
  | finished
  | cleanAbort
  | crash
deriving DecidableEq

structure AllocOracle where
  edge_source_ok : Bool
  edge_target_ok : Bool
  edge_weight_ok : Bool
  alias_ok : Bool
  prob_ok : Bool
  norm_prob_ok : Bool
  large_block_ok : Bool
  small_block_ok : Bool
  emb_vertex_ok : Bool
  emb_context_ok : Bool
  neg_table_ok : Bool
  sigmoid_table_ok : Bool

structure RunResult where
  outcome : SetupOutcome
  threads_spawned : Bool
  output_appended : Bool

def TrainLINEMainAlloc (o : AllocOracle) : RunResult :=
  if !(o.edge_source_ok && o.edge_target_ok && o.edge_weight_ok) then
    ⟨.cleanAbort, false, false⟩
  else if !(o.alias_ok && o.prob_ok) then
    ⟨.cleanAbort, false, false⟩
  else if !(o.norm_prob_ok && o.large_block_ok && o.small_block_ok) then
    ⟨.cleanAbort, false, false⟩
  else if !o.emb_vertex_ok then
    ⟨.cleanAbort, false, false⟩
  else if !o.emb_context_ok then
    ⟨.cleanAbort, false, false⟩
  else if !o.neg_table_ok then
    ⟨.crash, false, false⟩
  else if !o.sigmoid_table_ok then
    ⟨.crash, false, false⟩
  else
    ⟨.finished, true, true⟩

/-! ## Alias sampler (InitAliasTable, lines 117-172; SampleAnEdge, lines 174-178)

Weights and table entries are exact rationals (the C code uses `double`).
`alias` entries start as `none`, modelling the malloc'ed array whose cells
the construction may never assign; `prob` starts as an arbitrary junk
function `prob₀` for the same reason, and the theorems quantify over it. -/

structure AliasState where
  normProb : ℕ → ℚ
  prob : ℕ → ℚ
  aliasTable : ℕ → Option ℕ
  small : List ℕ
  large : List ℕ

/-- `norm_prob[k] = edge_weight[k] * num_edges / sum` (line 143). -/
def initNormProb (w : List ℚ) : ℕ → ℚ :=
  fun k => w.getD k 0 * w.length / w.sum

/-- The classification loop of lines 145-151: `k` from `num_edges - 1`
down to `0`, pushing onto the small/large stacks (head = stack top). -/
def initQueues (w : List ℚ) : List ℕ × List ℕ :=
  (List.range w.length).reverse.foldl
    (fun ql k =>
      if initNormProb w k < 1 then (k :: ql.1, ql.2) else (ql.1, k :: ql.2))
    ([], [])

/-- The pairing loop of lines 153-164, with fuel for structural recursion
(the initial fuel `num_edges` is provably sufficient). -/
def aliasLoop (fuel : ℕ) (s : AliasState) : AliasState :=
  match fuel with
  | 0 => s
  | fuel + 1 =>
    match s.small, s.large with
    | cs :: small', cl :: large' =>
      let np := s.normProb cl + s.normProb cs - 1
      aliasLoop fuel
        { normProb := Function.update s.normProb cl np
          prob := Function.update s.prob cs (s.normProb cs)
          aliasTable := Function.update s.aliasTable cs (some cl)
          small := if np < 1 then cl :: small' else small'
          large := if np < 1 then large' else cl :: large' }
    | _, _ => s

/-- The cleanup loops of lines 166-167: pop every remaining block and set
its `prob` to 1 (line 166 drains `large`, then line 167 drains `small`). -/
def setProbOne (l : List ℕ) (prob : ℕ → ℚ) : ℕ → ℚ :=
  l.foldl (fun p k => Function.update p k 1) prob

def InitAliasTable (prob₀ : ℕ → ℚ) (w : List ℚ) : AliasState :=
  let s := aliasLoop w.length
    { normProb := initNormProb w
      prob := prob₀
      aliasTable := fun _ => none
      small := (initQueues w).1
      large := (initQueues w).2 }
  { s with
    prob := setProbOne s.small (setProbOne s.large s.prob)
    small := []
    large := [] }

/-- `SampleAnEdge` (lines 174-178): `k = (long long)(num_edges * r1)`;
return `k` if `r2 < prob[k]`, else `alias[k]`.  An unassigned alias cell
yields `none`. -/
noncomputable def SampleAnEdge (n : ℕ) (prob : ℕ → ℚ) (aliasTable : ℕ → Option ℕ)
    (r1 r2 : ℝ) : Option ℕ :=
  let k := (⌊(n : ℝ) * r1⌋).toNat
  if r2 < (prob k : ℝ) then some k else aliasTable k

/-- Mass routed to edge `j` through alias redirection. -/
def aliasMass (s : AliasState) (n j : ℕ) : ℚ :=
  ∑ k ∈ Finset.range n, (if s.aliasTable k = some j then 1 - s.prob k else 0)

/-- Total mass the table currently assigns to edge `j`: its queued
normalized weight while unfinalized (its `prob` slot once finalized), plus
everything redirected to it by finalized slots. -/
def massTo (s : AliasState) (n j : ℕ) : ℚ :=
  (if j ∈ s.small ∨ j ∈ s.large then s.normProb j else s.prob j) +
    aliasMass s n j

/-- The event set of C1: pairs of uniform draws on which `SampleAnEdge`
returns edge `j`. -/
def sampleEvent (n : ℕ) (prob : ℕ → ℚ) (aliasTable : ℕ → Option ℕ) (j : ℕ) :
    Set (ℝ × ℝ) :=
  {p | p.1 ∈ Set.Ico (0:ℝ) 1 ∧ p.2 ∈ Set.Ico (0:ℝ) 1 ∧
    SampleAnEdge n prob aliasTable p.1 p.2 = some j}

/-- The loop invariant of the alias construction. -/
structure AliasInv (n : ℕ) (np₀ : ℕ → ℚ) (s : AliasState) : Prop where
  nodup : (s.small ++ s.large).Nodup
  mem_lt : ∀ k ∈ s.small ++ s.large, k < n
  small_lt : ∀ k ∈ s.small, s.normProb k < 1
  large_ge : ∀ k ∈ s.large, 1 ≤ s.normProb k
  queued_nonneg : ∀ k ∈ s.small ++ s.large, 0 ≤ s.normProb k
  alias_queued : ∀ k ∈ s.small ++ s.large, s.aliasTable k = none
  fin_prob : ∀ k < n, k ∉ s.small → k ∉ s.large →
    0 ≤ s.prob k ∧ s.prob k ≤ 1 ∧ ∃ l, s.aliasTable k = some l ∧ l < n
  mass : ∀ j < n, massTo s n j = np₀ j
  sum_queued : ((s.small ++ s.large).map s.normProb).sum =
    (s.small ++ s.large).length

/-! ## Negative sampling table (InitNegTable, lines 197-213)

`pow(degree, 0.75)` is `Real.rpow`; arithmetic is exact real arithmetic.
The running variable `por` always equals `cur_sum / sum` (it is recomputed
from `cur_sum` at every update and starts at `0 = 0 / sum`), so the state
is `(vid, cur_sum)` and the comparison of line 205 reads
`(k+1)/neg_table_size > cur_sum/sum`. -/

noncomputable def NEG_SAMPLING_POWER : ℝ := 0.75

noncomputable def negPow (d : ℝ) : ℝ := d ^ NEG_SAMPLING_POWER

/-- State `(vid, cur_sum)` after the loop of lines 203-212 has processed
slots `0 .. k-1`. -/
noncomputable def negState (degree : List ℝ) : ℕ → ℕ × ℝ
  | 0 => (0, 0)
  | k + 1 =>
    let s := negState degree k
    if ((k : ℝ) + 1) / (neg_table_size : ℝ) >
        s.2 / ((degree.map negPow).sum) then
      (s.1 + 1, s.2 + negPow (degree.getD s.1 0))
    else s

/-- `neg_table[k] = vid - 1` (line 211), after the slot-`k` conditional. -/
noncomputable def InitNegTable (degree : List ℝ) (k : ℕ) : ℕ :=
  (negState degree (k + 1)).1 - 1

/-- Cumulative (unnormalized) `degree^0.75` mass of the first `i` vertices. -/
noncomputable def cumNeg (degree : List ℝ) (i : ℕ) : ℝ :=
  ((degree.take i).map negPow).sum

/-- Normalized cumulative share of the first `i` vertices. -/
noncomputable def cumShare (degree : List ℝ) (i : ℕ) : ℝ :=
  cumNeg degree i / (degree.map negPow).sum

/-- Normalized `degree^0.75` share of vertex `v`. -/
noncomputable def negShare (degree : List ℝ) (v : ℕ) : ℝ :=
  negPow (degree.getD v 0) / (degree.map negPow).sum

/-- Modelled from the spec's words for C3: the vertex whose cumulative
normalized share first EXCEEDS `(k+1)/tableSize` (strict, as the claim
states it). -/
noncomputable def firstExceedsVertex (degree : List ℝ) (k : ℕ) : ℕ :=
  sInf {i : ℕ | ((k : ℝ) + 1) / (neg_table_size : ℝ) < cumShare degree (i + 1)}

/-- The corrected characterization: the vertex whose cumulative normalized
share first reaches (`≥`) `(k+1)/tableSize`. -/
noncomputable def firstReachesVertex (degree : List ℝ) (k : ℕ) : ℕ :=
  sInf {i : ℕ | ((k : ℝ) + 1) / (neg_table_size : ℝ) ≤ cumShare degree (i + 1)}

/-! ## SGD update step (Update, lines 243-250; TrainLINEThread body, lines 274-298)

Memory holds the two embedding arrays: cell `(false, i)` is `emb_vertex[i]`,
cell `(true, i)` is `emb_context[i]`.  `Update(&emb_vertex[lu], vec_v, ...)`
receives base offsets into these flat arrays; the loops of lines 246-249 are
modelled index-faithfully (the third loop as a sequential fold, since it
writes cells it may later read). -/

/-- The loop of line 249, `for c: vec_v[c] += g * vec_u[c]`, executed for
`c = 0 .. n-1` in order against the current memory. -/
noncomputable def updateVLoop (g : ℝ) (pu pv : Bool × ℕ) :
    ℕ → ((Bool × ℕ) → ℝ) → ((Bool × ℕ) → ℝ)
  | 0, mem => mem
  | c + 1, mem =>
    let m := updateVLoop g pu pv c mem
    Function.update m (pv.1, pv.2 + c) (m (pv.1, pv.2 + c) + g * m (pu.1, pu.2 + c))

/-- `Update` (lines 243-250): dot product, gradient scalar, error
accumulation (line 248, against pre-write `vec_v`), then the in-place
`vec_v` update (line 249). -/
noncomputable def Update (dim : ℕ) (rho junk : ℝ) (mem : (Bool × ℕ) → ℝ)
    (pu pv : Bool × ℕ) (err : ℕ → ℝ) (label : ℕ) :
    ((Bool × ℕ) → ℝ) × (ℕ → ℝ) :=
  let x := ∑ c ∈ Finset.range dim, mem (pu.1, pu.2 + c) * mem (pv.1, pv.2 + c)
  let g := ((label : ℝ) - FastSigmoid junk x) * rho
  let err' := fun c => if c < dim then err c + g * mem (pv.1, pv.2 + c) else err c
  (updateVLoop g pu pv dim mem, err')

/-- The `(target, label)` pairs of the negative-sampling loop
(lines 282-293): `d = 0` is the positive pair `(v, 1)`; `d ≥ 1` draws
`target = neg_table[Rand(seed)]`, supplied here by the oracle `negTarget`. -/
def trainPairs (v numNeg : ℕ) (negTarget : ℕ → ℕ) : List (ℕ × ℕ) :=
  (List.range (numNeg + 1)).map (fun d => if d = 0 then (v, 1) else (negTarget d, 0))

/-- The body of the `d`-loop (lines 294-296): both `order` tests of the
source are performed on each pair. -/
noncomputable def trainPairsLoop (dim : ℕ) (order : ℤ) (rho junk : ℝ) (lu : ℕ) :
    List (ℕ × ℕ) → ((Bool × ℕ) → ℝ) → (ℕ → ℝ) →
      ((Bool × ℕ) → ℝ) × (ℕ → ℝ)
  | [], mem, err => (mem, err)
  | (target, label) :: rest, mem, err =>
    let lv := target * dim
    let s1 := if order = 1 then
        Update dim rho junk mem (false, lu) (false, lv) err label
      else (mem, err)
    let s2 := if order = 2 then
        Update dim rho junk s1.1 (false, lu) (true, lv) s1.2 label
      else s1
    trainPairsLoop dim order rho junk lu rest s2.1 s2.2

/-- The final source update (line 298):
`for c: emb_vertex[c + lu] += vec_error[c]`. -/
noncomputable def applyErrLoop (lu : ℕ) (err : ℕ → ℝ) :
    ℕ → ((Bool × ℕ) → ℝ) → ((Bool × ℕ) → ℝ)
  | 0, mem => mem
  | c + 1, mem =>
    let m := applyErrLoop lu err c mem
    Function.update m (false, lu + c) (m (false, lu + c) + err c)

/-- One full training step for a sampled edge `(u, v)` (lines 278-298):
zero the error buffer, run the `numNegative + 1` pairs, then apply the
accumulated error to the source row. -/
noncomputable def trainEdgeStep (dim : ℕ) (order : ℤ) (rho junk : ℝ)
    (u v numNeg : ℕ) (negTarget : ℕ → ℕ) (mem : (Bool × ℕ) → ℝ) :
    (Bool × ℕ) → ℝ :=
  let lu := u * dim
  let s := trainPairsLoop dim order rho junk lu
    (trainPairs v numNeg negTarget) mem (fun _ => 0)
  applyErrLoop lu s.2 dim s.1

/-- Modelled from the spec's words for C2: process the pairs sequentially
with the SOURCE ROW FROZEN; for each pair compute `x = src · targetVec`
against the current target row, `g = (label - Eval x) * rho`, accumulate
`g * targetVec` (pre-write) into the error, and update the target row in
place by `g * src`. -/
noncomputable def specPairsLoop (dim : ℕ) (rho junk : ℝ) (srcRow : ℕ → ℝ)
    (tgtArr : Bool) :
    List (ℕ × ℕ) → ((Bool × ℕ) → ℝ) → (ℕ → ℝ) →
      ((Bool × ℕ) → ℝ) × (ℕ → ℝ)
  | [], mem, err => (mem, err)
  | (target, label) :: rest, mem, err =>
    let lv := target * dim
    let x := ∑ c ∈ Finset.range dim, srcRow c * mem (tgtArr, lv + c)
    let g := ((label : ℝ) - FastSigmoid junk x) * rho
    let err' := fun c => if c < dim then err c + g * mem (tgtArr, lv + c) else err c
    let mem' := fun p : Bool × ℕ =>
      if p.1 = tgtArr ∧ lv ≤ p.2 ∧ p.2 < lv + dim
      then mem p + g * srcRow (p.2 - lv) else mem p
    specPairsLoop dim rho junk srcRow tgtArr rest mem' err'

/-- Modelled from the spec's words for C2: after all pairs, the single
batched source update `vertexEmb[u] += error`; everything else is the pair
loop's result. -/
noncomputable def specTrainStep (dim : ℕ) (rho junk : ℝ) (u : ℕ)
    (tgtArr : Bool) (pairs : List (ℕ × ℕ)) (mem : (Bool × ℕ) → ℝ) :
    (Bool × ℕ) → ℝ :=
  let s := specPairsLoop dim rho junk (fun c => mem (false, u * dim + c))
    tgtArr pairs mem (fun _ => 0)
  fun p => if p.1 = false ∧ u * dim ≤ p.2 ∧ p.2 < u * dim + dim
    then s.1 p + s.2 (p.2 - u * dim) else s.1 p

/-- A C `char` of the name promoted to `unsigned int` (two's complement
wrap of signed bytes), as in the `hash * seed + (*key++)` accumulation of
line 68. -/
def charVal (c : ℕ) : ℕ := if c < 128 then c else 2 ^ 32 + c - 256

/-- `Hash` (lines 62-71): seed-131 string hash in `unsigned int`
arithmetic, reduced mod the table size. -/
def Hash (key : List ℕ) : ℕ :=
  (key.foldl (fun h c => (h * 131 + charVal c) % 2 ^ 32) 0) % hash_table_size

/-- The slot reached after `j` linear-probing steps from `h`
(`addr = (addr + 1) % hash_table_size`). -/
def probeSlot (h j : ℕ) : ℕ := (h + j) % hash_table_size

/-- The open-addressing probe of `InsertHashTable` (lines 79-84), fuelled:
the C `while` spins forever on a table with no empty slot, which here is
fuel exhaustion, `none`. -/
def insertProbe (table : ℕ → Option ℕ) (value : ℕ) :
    ℕ → ℕ → Option (ℕ → Option ℕ)
  | 0, _ => none
  | fuel + 1, addr =>
    match table addr with
    | none => some (Function.update table addr (some value))
    | some _ => insertProbe table value fuel ((addr + 1) % hash_table_size)

/-- `InsertHashTable` (lines 79-84). -/
def InsertHashTable (table : ℕ → Option ℕ) (key : List ℕ) (value : ℕ) :
    Option (ℕ → Option ℕ) :=
  insertProbe table value hash_table_size (Hash key)

/-- The probe of `SearchHashTable` (lines 86-96): return the stored id at
the first slot whose stored vertex name strcmp-equals the key, or "absent"
at the first empty slot; fuel exhaustion (`none`) is the C loop spinning on
a full table without the key. -/
def searchProbe (table : ℕ → Option ℕ) (names : List (List ℕ))
    (key : List ℕ) : ℕ → ℕ → Option (Option ℕ)
  | 0, _ => none
  | fuel + 1, addr =>
    match table addr with
    | none => some none
    | some v =>
      if names.getD v [] = key then some (some v)
      else searchProbe table names key fuel ((addr + 1) % hash_table_size)

/-- `SearchHashTable` (lines 86-96). -/
def SearchHashTable (table : ℕ → Option ℕ) (names : List (List ℕ))
    (key : List ℕ) : Option (Option ℕ) :=
  searchProbe table names key hash_table_size (Hash key)

/-- The vertex store: `vertex_hash_table` (with `none` for `-1`) plus the
stored `vertex[i].name` strings for `i < num_vertices`. -/
structure GraphState where
  table : ℕ → Option ℕ
  names : List (List ℕ)

/-- The state after `InitHashTable` (lines 73-77) with no vertices yet. -/
def initialGraphState : GraphState := ⟨fun _ => none, []⟩

/-- `AddVertex` (lines 98-114): store the strncpy-truncated name (at most
`MAX_STRING - 1` characters), bump `num_vertices`, and insert the new id
under the hash of the full name. -/
def AddVertex (s : GraphState) (name : List ℕ) : Option (GraphState × ℕ) :=
  match InsertHashTable s.table name s.names.length with
  | none => none
  | some table' =>
    some (⟨table', s.names ++ [name.take (MAX_STRING - 1)]⟩, s.names.length)

/-- One endpoint of `VectorReadData`'s edge loop (lines 339-347): look the
name up and add it on a miss. -/
def readName (s : GraphState) (name : List ℕ) : Option (GraphState × ℕ) :=
  match SearchHashTable s.table s.names name with
  | none => none
  | some (some vid) => some (s, vid)
  | some none => AddVertex s name

/-- The id-assignment effect of `VectorReadData` (lines 307-352) on the
stream of endpoint names, in encounter order. -/
def VectorReadNames : GraphState → List (List ℕ) → Option (GraphState × List ℕ)
  | s, [] => some (s, [])
  | s, name :: rest =>
    match readName s name with
    | none => none
    | some (s', vid) =>
      match VectorReadNames s' rest with
      | none => none
      | some (s'', vids) => some (s'', vid :: vids)

/-- Modelled from the spec's words for C7: the position of a name's first
occurrence in the list of names seen so far. -/
def specFirstIndex : List (List ℕ) → List ℕ → ℕ
  | [], _ => 0
  | m :: rest, name => if m = name then 0 else specFirstIndex rest name + 1

/-- Modelled from the spec's words for C7: a fresh name is appended and
receives the current vertex count as its id; an already-present name
returns the id of its first occurrence and creates no new vertex. -/
def specStep (seen : List (List ℕ)) (name : List ℕ) :
    List (List ℕ) × ℕ :=
  if name ∈ seen then (seen, specFirstIndex seen name)
  else (seen ++ [name], seen.length)

/-- Modelled from the spec's words for C7: sequential first-occurrence id
assignment over the whole name stream. -/
def specAssign : List (List ℕ) → List (List ℕ) → List (List ℕ) × List ℕ
  | seen, [] => (seen, [])
  | seen, name :: rest =>
    let p := specStep seen name
    let q := specAssign p.1 rest
    (q.1, p.2 :: q.2)

/-- The linear-probing integrity invariant of the vertex hash table. -/
structure GraphInv (s : GraphState) : Prop where
  bound : ∀ a, hash_table_size ≤ a → s.table a = none
  val_lt : ∀ a v, s.table a = some v → v < s.names.length
  inj : ∀ a b v, s.table a = some v → s.table b = some v → a = b
  chain : ∀ v, v < s.names.length → ∃ steps, steps < hash_table_size ∧
    s.table (probeSlot (Hash (s.names.getD v [])) steps) = some v ∧
    ∀ j, j < steps →
      (s.table (probeSlot (Hash (s.names.getD v [])) j)).isSome = true
  nodup : s.names.Nodup
  card : ((Finset.range hash_table_size).filter
    (fun a => (s.table a).isSome = true)).card = s.names.length

/-! ## Theorems -/

/-- Helper: the stack-filling loop of lines 145-151 produces exactly the
ascending filters of `range n` (descending pushes onto a stack). -/
theorem initQueues_foldl (w : List ℚ) (l : List ℕ) (acc : List ℕ × List ℕ) :
    l.foldl
      (fun ql k =>
        if initNormProb w k < 1 then (k :: ql.1, ql.2) else (ql.1, k :: ql.2))
      acc =
      (l.reverse.filter (fun k => decide (initNormProb w k < 1)) ++ acc.1,
        l.reverse.filter (fun k => !decide (initNormProb w k < 1)) ++ acc.2) := by
  induction l generalizing acc with
  | nil => simp
  | cons a l ih =>
    rw [List.foldl_cons, ih]
    by_cases h : initNormProb w a < 1 <;>
      simp [h, List.filter_append]

theorem initQueues_eq (w : List ℚ) :
    initQueues w =
      ((List.range w.length).filter (fun k => decide (initNormProb w k < 1)),
        (List.range w.length).filter (fun k => !decide (initNormProb w k < 1))) := by
  rw [initQueues, initQueues_foldl]
  simp

/-- Helper: sum of `getD` over the index range is the list sum. -/
theorem range_map_getD_sum (w : List ℚ) :
    ((List.range w.length).map (fun k => w.getD k 0)).sum = w.sum := by
  induction w with
  | nil => simp
  | cons a t ih =>
    rw [List.length_cons, List.range_succ_eq_map, List.map_cons, List.map_map,
      List.sum_cons]
    simp only [Function.comp_def, List.getD_cons_succ, List.getD_cons_zero]
    rw [ih, List.sum_cons]

/-- Helper: the normalized weights sum to `n`. -/
theorem initNormProb_range_sum (w : List ℚ) (hs : w.sum ≠ 0) :
    ((List.range w.length).map (initNormProb w)).sum = (w.length : ℚ) := by
  have h1 : ∀ k, initNormProb w k = w.getD k 0 * ((w.length : ℚ) / w.sum) := by
    intro k
    rw [initNormProb, mul_div_assoc]
  calc ((List.range w.length).map (initNormProb w)).sum
      = ((List.range w.length).map
          (fun k => w.getD k 0 * ((w.length : ℚ) / w.sum))).sum := by
        exact congrArg List.sum (List.map_congr_left fun k _ => h1 k)
    _ = ((List.range w.length).map (fun k => w.getD k 0)).sum *
          ((w.length : ℚ) / w.sum) := List.sum_map_mul_right _ _ _
    _ = w.sum * ((w.length : ℚ) / w.sum) := by rw [range_map_getD_sum]
    _ = (w.length : ℚ) := by field_simp

/-- Helper: a nonempty list of values all below 1 sums below its length. -/
theorem list_sum_lt_length (f : ℕ → ℚ) :
    ∀ l : List ℕ, l ≠ [] → (∀ k ∈ l, f k < 1) → (l.map f).sum < l.length := by
  intro l
  induction l with
  | nil => intro h; exact absurd rfl h
  | cons a t ih =>
    intro _ hf
    rw [List.map_cons, List.sum_cons, List.length_cons]
    rcases eq_or_ne t [] with rfl | ht
    · simpa using hf a (by simp)
    · have h1 := ih ht (fun k hk => hf k (List.mem_cons_of_mem a hk))
      have h2 := hf a (List.mem_cons_self a t)
      push_cast
      push_cast at h1
      linarith

/-- Helper: a list of values all at least 1 sums to at least its length. -/
theorem list_length_le_sum (f : ℕ → ℚ) :
    ∀ l : List ℕ, (∀ k ∈ l, 1 ≤ f k) → (l.length : ℚ) ≤ (l.map f).sum := by
  intro l
  induction l with
  | nil => simp
  | cons a t ih =>
    intro hf
    rw [List.map_cons, List.sum_cons, List.length_cons]
    have h1 := ih (fun k hk => hf k (List.mem_cons_of_mem a hk))
    have h2 := hf a (List.mem_cons_self a t)
    push_cast
    linarith

/-- Helper: values all at least 1 summing exactly to the length are all 1. -/
theorem list_all_eq_one (f : ℕ → ℚ) :
    ∀ l : List ℕ, (∀ k ∈ l, 1 ≤ f k) → (l.map f).sum = l.length →
      ∀ k ∈ l, f k = 1 := by
  intro l
  induction l with
  | nil => simp
  | cons a t ih =>
    intro hf hsum k hk
    have h1 := list_length_le_sum f t (fun k hk => hf k (List.mem_cons_of_mem a hk))
    have h2 := hf a (List.mem_cons_self a t)
    rw [List.map_cons, List.sum_cons, List.length_cons] at hsum
    push_cast at hsum
    have ha : f a = 1 := by linarith
    rcases List.mem_cons.mp hk with rfl | hk'
    · exact ha
    · refine ih (fun k hk => hf k (List.mem_cons_of_mem a hk)) ?_ k hk'
      push_cast
      linarith

/-- Helper: `setProbOne` leaves slots outside the drained list unchanged. -/
theorem setProbOne_not_mem (k : ℕ) :
    ∀ (l : List ℕ) (prob : ℕ → ℚ), k ∉ l → setProbOne l prob k = prob k := by
  intro l
  induction l with
  | nil => intro prob _; rfl
  | cons a t ih =>
    intro prob hk
    rw [setProbOne, List.foldl_cons]
    have hka : k ≠ a := fun h => hk (h ▸ List.mem_cons_self a t)
    have hkt : k ∉ t := fun h => hk (List.mem_cons_of_mem a h)
    rw [show (List.foldl (fun p k => Function.update p k 1)
      (Function.update prob a 1) t) = setProbOne t (Function.update prob a 1) from rfl]
    rw [ih _ hkt, Function.update_noteq hka]

/-- Helper: `setProbOne` writes 1 into every slot of the drained list. -/
theorem setProbOne_mem (k : ℕ) :
    ∀ (l : List ℕ) (prob : ℕ → ℚ), k ∈ l → setProbOne l prob k = 1 := by
  intro l
  induction l with
  | nil => intro prob h; simp at h
  | cons a t ih =>
    intro prob hk
    rw [setProbOne, List.foldl_cons]
    rw [show (List.foldl (fun p k => Function.update p k 1)
      (Function.update prob a 1) t) = setProbOne t (Function.update prob a 1) from rfl]
    by_cases hkt : k ∈ t
    · exact ih _ hkt
    · have hka : k = a := by
        rcases List.mem_cons.mp hk with h | h
        · exact h
        · exact absurd h hkt
      rw [setProbOne_not_mem k t _ hkt, hka, Function.update_same]

/-- Helper: positive weights make every normalized weight nonnegative. -/
theorem initNormProb_nonneg (w : List ℚ) (hw : ∀ x ∈ w, 0 < x) (k : ℕ)
    (hk : k < w.length) : 0 ≤ initNormProb w k := by
  have hx : 0 < w.getD k 0 := by
    rw [List.getD_eq_getElem w 0 hk]
    exact hw _ (List.getElem_mem hk)
  have hs : 0 ≤ w.sum := le_of_lt (List.sum_pos w hw (by rintro rfl; simp at hk))
  rw [initNormProb]
  positivity

/-- Helper: the state entering the pairing loop satisfies the invariant. -/
theorem aliasInv_init (w : List ℚ) (hw : ∀ x ∈ w, 0 < x) (hne : w ≠ [])
    (prob₀ : ℕ → ℚ) :
    AliasInv w.length (initNormProb w)
      { normProb := initNormProb w
        prob := prob₀
        aliasTable := fun _ => none
        small := (initQueues w).1
        large := (initQueues w).2 } := by
  have hsum : 0 < w.sum := List.sum_pos w hw hne
  rw [initQueues_eq]
  set n := w.length with hn
  set np := initNormProb w with hnp
  set p : ℕ → Bool := fun k => decide (np k < 1) with hp
  have hperm : List.Perm
      ((List.range n).filter p ++ (List.range n).filter (fun k => !p k))
      (List.range n) :=
    List.filter_append_perm p (List.range n)
  have hmemS : ∀ k, k ∈ (List.range n).filter p ↔ k < n ∧ np k < 1 := by
    intro k
    rw [List.mem_filter, List.mem_range, hp, decide_eq_true_iff]
  have hmemL : ∀ k, k ∈ (List.range n).filter (fun k => !p k) ↔
      k < n ∧ ¬ np k < 1 := by
    intro k
    rw [List.mem_filter, List.mem_range, hp, Bool.not_eq_true', decide_eq_false_iff_not]
  have hq : ∀ k, k < n →
      k ∈ (List.range n).filter p ∨ k ∈ (List.range n).filter (fun k => !p k) := by
    intro k hk
    by_cases h : np k < 1
    · exact Or.inl ((hmemS k).mpr ⟨hk, h⟩)
    · exact Or.inr ((hmemL k).mpr ⟨hk, h⟩)
  constructor
  case nodup => exact hperm.nodup_iff.mpr (List.nodup_range n)
  case mem_lt =>
    intro k hk
    rcases List.mem_append.mp hk with h | h
    · exact ((hmemS k).mp h).1
    · exact ((hmemL k).mp h).1
  case small_lt =>
    intro k hk
    exact ((hmemS k).mp hk).2
  case large_ge =>
    intro k hk
    exact not_lt.mp ((hmemL k).mp hk).2
  case queued_nonneg =>
    intro k hk
    rcases List.mem_append.mp hk with h | h
    · exact initNormProb_nonneg w hw k ((hmemS k).mp h).1
    · exact initNormProb_nonneg w hw k ((hmemL k).mp h).1
  case alias_queued =>
    intro k _
    rfl
  case fin_prob =>
    intro k hk hks hkl
    rcases hq k hk with h | h
    · exact absurd h hks
    · exact absurd h hkl
  case mass =>
    intro j hj
    have hjq : j ∈ (List.range n).filter p ∨
        j ∈ (List.range n).filter (fun k => !p k) := hq j hj
    rw [massTo, if_pos hjq]
    have : aliasMass
        { normProb := np, prob := prob₀, aliasTable := fun _ => none,
          small := (List.range n).filter p,
          large := (List.range n).filter (fun k => !p k) } n j = 0 := by
      rw [aliasMass]
      simp
    rw [this, add_zero]
  case sum_queued =>
    rw [(hperm.map np).sum_eq, hperm.length_eq, List.length_range,
      initNormProb_range_sum w (ne_of_gt hsum)]

/-- Helper: one iteration of the pairing loop body (lines 155-163) preserves
the invariant. -/
theorem aliasStep_inv (n : ℕ) (np₀ np pb : ℕ → ℚ) (al : ℕ → Option ℕ)
    (cs cl : ℕ) (small' large' : List ℕ)
    (h : AliasInv n np₀ ⟨np, pb, al, cs :: small', cl :: large'⟩) :
    AliasInv n np₀
      { normProb := Function.update np cl (np cl + np cs - 1)
        prob := Function.update pb cs (np cs)
        aliasTable := Function.update al cs (some cl)
        small := if np cl + np cs - 1 < 1 then cl :: small' else small'
        large := if np cl + np cs - 1 < 1 then large' else cl :: large' } := by
  have hsmall : ∀ k ∈ cs :: small', np k < 1 := h.small_lt
  have hlarge : ∀ k ∈ cl :: large', 1 ≤ np k := h.large_ge
  have hqnn : ∀ k ∈ cs :: small' ++ cl :: large', 0 ≤ np k := h.queued_nonneg
  have hAQ : ∀ k ∈ cs :: small' ++ cl :: large', al k = none := h.alias_queued
  have hmlt : ∀ k ∈ cs :: small' ++ cl :: large', k < n := h.mem_lt
  have hfin : ∀ k < n, k ∉ cs :: small' → k ∉ cl :: large' →
      0 ≤ pb k ∧ pb k ≤ 1 ∧ ∃ l, al k = some l ∧ l < n := h.fin_prob
  have hnd' : (cs :: small' ++ cl :: large').Nodup := h.nodup
  have hsq : ((cs :: small' ++ cl :: large').map np).sum =
      ((cs :: small' ++ cl :: large').length : ℚ) := h.sum_queued
  have hmassO : ∀ j < n,
      (if j ∈ cs :: small' ∨ j ∈ cl :: large' then np j else pb j) +
        (∑ k ∈ Finset.range n, if al k = some j then 1 - pb k else 0) =
        np₀ j := fun j hj => h.mass j hj
  have hcsO : cs ∈ cs :: small' ++ cl :: large' := by simp
  have hclO : cl ∈ cs :: small' ++ cl :: large' := by simp
  rw [List.cons_append, List.nodup_cons] at hnd'
  obtain ⟨hcsnot, htail⟩ := hnd'
  have htail2 : (cl :: (small' ++ large')).Nodup :=
    (List.perm_middle.nodup_iff).mp htail
  obtain ⟨hclnot, hnd3⟩ := List.nodup_cons.mp htail2
  have hcs1 : cs ∉ small' := fun hh => hcsnot (by simp [hh])
  have hcs2 : cs ≠ cl := fun hh => hcsnot (by simp [hh])
  have hcs3 : cs ∉ large' := fun hh => hcsnot (by simp [hh])
  have hcl1 : cl ∉ small' := fun hh => hclnot (by simp [hh])
  have hcl2 : cl ∉ large' := fun hh => hclnot (by simp [hh])
  have hnpcl : 1 ≤ np cl := hlarge cl (by simp)
  have hnpcs0 : 0 ≤ np cs := hqnn cs (by simp)
  have hnpcs1 : np cs < 1 := hsmall cs (by simp)
  have hcsn : cs < n := hmlt cs hcsO
  have hcln : cl < n := hmlt cl hclO
  have hcsr : cs ∈ Finset.range n := Finset.mem_range.mpr hcsn
  -- effect of the step on the alias-routed mass
  have hAM : ∀ j,
      (∑ k ∈ Finset.range n,
        if (Function.update al cs (some cl)) k = some j
        then 1 - (Function.update pb cs (np cs)) k else 0) =
      (∑ k ∈ Finset.range n, if al k = some j then 1 - pb k else 0) +
        (if cl = j then 1 - np cs else 0) := by
    intro j
    rw [Finset.sum_eq_sum_diff_singleton_add hcsr,
      Finset.sum_eq_sum_diff_singleton_add hcsr
        (fun k => if al k = some j then 1 - pb k else 0)]
    have hdiff : ∀ k ∈ Finset.range n \ {cs},
        (if (Function.update al cs (some cl)) k = some j
          then 1 - (Function.update pb cs (np cs)) k else 0) =
        (if al k = some j then 1 - pb k else 0) := by
      intro k hk
      have hkcs : k ≠ cs := by
        rcases Finset.mem_sdiff.mp hk with ⟨_, hk2⟩
        simpa using hk2
      rw [Function.update_noteq hkcs, Function.update_noteq hkcs]
    rw [Finset.sum_congr rfl hdiff, hAQ cs hcsO, Function.update_same,
      Function.update_same]
    simp only [Option.some.injEq, reduceCtorEq, if_false]
    ring
  set v : ℚ := np cl + np cs - 1 with hv
  have hT : ((small' ++ large').map (Function.update np cl v)).sum =
      ((small' ++ large').map np).sum := by
    refine congrArg List.sum (List.map_congr_left ?_)
    intro k hk
    refine Function.update_noteq ?_ _ _
    rintro rfl
    exact hclnot hk
  have hsq2 : np cs + (np cl + ((small' ++ large').map np).sum) =
      (small'.length : ℚ) + (large'.length : ℚ) + 2 := by
    have e1 : ((cs :: small' ++ cl :: large').map np).sum =
        np cs + ((small' ++ cl :: large').map np).sum := by
      rw [List.cons_append, List.map_cons, List.sum_cons]
    have e2 : ((small' ++ cl :: large').map np).sum =
        np cl + ((small' ++ large').map np).sum := by
      rw [(List.perm_middle.map np).sum_eq, List.map_cons, List.sum_cons]
    have e3 : ((cs :: small' ++ cl :: large').length : ℚ) =
        (small'.length : ℚ) + (large'.length : ℚ) + 2 := by
      simp [List.length_append]
      ring
    rw [e1, e2, e3] at hsq
    linarith
  have hfin' : ∀ k, k < n → k ≠ cs → k ∉ small' → k ≠ cl → k ∉ large' →
      0 ≤ Function.update pb cs (np cs) k ∧ Function.update pb cs (np cs) k ≤ 1 ∧
        ∃ l, Function.update al cs (some cl) k = some l ∧ l < n := by
    intro k hk hkcs hks hkcl hkl
    obtain ⟨hp0, hp1, l, hal, hln⟩ := hfin k hk
      (by simp [hkcs, hks]) (by simp [hkcl, hkl])
    exact ⟨by rwa [Function.update_noteq hkcs],
      by rwa [Function.update_noteq hkcs],
      l, by rwa [Function.update_noteq hkcs], hln⟩
  have hfincs : 0 ≤ Function.update pb cs (np cs) cs ∧
      Function.update pb cs (np cs) cs ≤ 1 ∧
      ∃ l, Function.update al cs (some cl) cs = some l ∧ l < n := by
    refine ⟨?_, ?_, cl, ?_, hcln⟩
    · rw [Function.update_same]; exact hnpcs0
    · rw [Function.update_same]; linarith
    · rw [Function.update_same]
  have hmass' : ∀ (sm lg : List ℕ),
      (∀ j, j ∈ sm ∨ j ∈ lg ↔ (j = cl ∨ j ∈ small' ∨ j ∈ large')) →
      ∀ j < n,
      (if j ∈ sm ∨ j ∈ lg then Function.update np cl v j
        else Function.update pb cs (np cs) j) +
        (∑ k ∈ Finset.range n,
          if (Function.update al cs (some cl)) k = some j
          then 1 - (Function.update pb cs (np cs)) k else 0) = np₀ j := by
    intro sm lg hQ j hj
    have hm := hmassO j hj
    rw [hAM j]
    rcases eq_or_ne j cs with hjcs | hjcs
    · rw [hjcs] at hm ⊢
      rw [if_neg (by
        rw [hQ cs]
        push_neg
        exact ⟨hcs2, hcs1, hcs3⟩)]
      rw [if_pos (by simp)] at hm
      rw [Function.update_same, if_neg (fun hh => hcs2 hh.symm), add_zero]
      exact hm
    rcases eq_or_ne j cl with hjcl | hjcl
    · rw [hjcl] at hm ⊢
      rw [if_pos ((hQ cl).mpr (Or.inl rfl)), Function.update_same]
      rw [if_pos (by simp)] at hm
      rw [if_pos rfl, hv]
      linarith
    · have hz : (if cl = j then 1 - np cs else 0) = 0 :=
        if_neg (fun hh => hjcl hh.symm)
      rw [hz, add_zero, Function.update_noteq hjcs]
      by_cases hjq : j ∈ small' ∨ j ∈ large'
      · rw [if_pos ((hQ j).mpr (Or.inr hjq)), Function.update_noteq hjcl]
        rw [if_pos (by
          rcases hjq with hh | hh
          · exact Or.inl (by simp [hh])
          · exact Or.inr (by simp [hh]))] at hm
        exact hm
      · rw [if_neg (by
          rw [hQ j]
          push_neg
          push_neg at hjq
          exact ⟨hjcl, hjq.1, hjq.2⟩)]
        rw [if_neg (by
          push_neg at hjq
          simp [List.mem_cons, hjcs, hjcl, hjq.1, hjq.2])] at hm
        exact hm
  have hmem_lt' : ∀ (sm lg : List ℕ),
      (∀ j, j ∈ sm ∨ j ∈ lg ↔ (j = cl ∨ j ∈ small' ∨ j ∈ large')) →
      ∀ k ∈ sm ++ lg, k < n := by
    intro sm lg hQ k hk
    rcases (hQ k).mp (List.mem_append.mp hk) with hkcl | hk | hk
    · rw [hkcl]
      exact hcln
    · exact hmlt k (by simp [hk])
    · exact hmlt k (by simp [hk])
  have hAQ' : ∀ (sm lg : List ℕ),
      (∀ j, j ∈ sm ∨ j ∈ lg ↔ (j = cl ∨ j ∈ small' ∨ j ∈ large')) →
      ∀ k ∈ sm ++ lg, Function.update al cs (some cl) k = none := by
    intro sm lg hQ k hk
    rcases (hQ k).mp (List.mem_append.mp hk) with hkcl | hk | hk
    · rw [hkcl, Function.update_noteq (Ne.symm hcs2)]
      exact hAQ cl hclO
    · rw [Function.update_noteq (by rintro rfl; exact hcs1 hk)]
      exact hAQ k (by simp [hk])
    · rw [Function.update_noteq (by rintro rfl; exact hcs3 hk)]
      exact hAQ k (by simp [hk])
  have hqnn' : ∀ (sm lg : List ℕ),
      (∀ j, j ∈ sm ∨ j ∈ lg ↔ (j = cl ∨ j ∈ small' ∨ j ∈ large')) →
      ∀ k ∈ sm ++ lg, 0 ≤ Function.update np cl v k := by
    intro sm lg hQ k hk
    rcases (hQ k).mp (List.mem_append.mp hk) with hkcl | hk | hk
    · rw [hkcl, Function.update_same, hv]; linarith
    · rw [Function.update_noteq (by rintro rfl; exact hcl1 hk)]
      exact hqnn k (by simp [hk])
    · rw [Function.update_noteq (by rintro rfl; exact hcl2 hk)]
      exact hqnn k (by simp [hk])
  by_cases hvlt : v < 1
  · -- cl is pushed back onto the small stack
    simp only [if_pos hvlt]
    have hQ : ∀ j, j ∈ cl :: small' ∨ j ∈ large' ↔
        (j = cl ∨ j ∈ small' ∨ j ∈ large') := by
      intro j
      simp [List.mem_cons, or_assoc]
    refine ⟨?_, ?_, ?_, ?_, ?_, ?_, ?_, ?_, ?_⟩ <;> dsimp only
    · rw [List.cons_append]
      exact htail2
    · exact hmem_lt' _ _ hQ
    · intro k hk
      rcases List.mem_cons.mp hk with hkcl | hk2
      · rw [hkcl, Function.update_same]; exact hvlt
      · rw [Function.update_noteq (by rintro rfl; exact hcl1 hk2)]
        exact hsmall k (by simp [hk2])
    · intro k hk
      rw [Function.update_noteq (by rintro rfl; exact hcl2 hk)]
      exact hlarge k (by simp [hk])
    · exact hqnn' _ _ hQ
    · exact hAQ' _ _ hQ
    · intro k hk hks hkl
      rcases eq_or_ne k cs with rfl | hkcs
      · exact hfincs
      · refine hfin' k hk hkcs ?_ ?_ hkl
        · exact fun hh => hks (List.mem_cons_of_mem cl hh)
        · exact fun hh => hks (hh ▸ List.mem_cons_self cl small')
    · intro j hj
      rw [massTo, aliasMass]
      exact hmass' _ _ hQ j hj
    · rw [List.cons_append, List.map_cons, List.sum_cons,
        hT, Function.update_same, List.length_cons]
      push_cast
      rw [List.length_append] at *
      push_cast at *
      linarith
  · -- cl goes back to the large stack
    simp only [if_neg hvlt]
    have hQ : ∀ j, j ∈ small' ∨ j ∈ cl :: large' ↔
        (j = cl ∨ j ∈ small' ∨ j ∈ large') := by
      intro j
      simp only [List.mem_cons]
      tauto
    refine ⟨?_, ?_, ?_, ?_, ?_, ?_, ?_, ?_, ?_⟩ <;> dsimp only
    · exact htail
    · exact hmem_lt' _ _ hQ
    · intro k hk
      rw [Function.update_noteq (by rintro rfl; exact hcl1 hk)]
      exact hsmall k (by simp [hk])
    · intro k hk
      rcases List.mem_cons.mp hk with hkcl | hk2
      · rw [hkcl, Function.update_same]; exact not_lt.mp hvlt
      · rw [Function.update_noteq (by rintro rfl; exact hcl2 hk2)]
        exact hlarge k (by simp [hk2])
    · exact hqnn' _ _ hQ
    · exact hAQ' _ _ hQ
    · intro k hk hks hkl
      rcases eq_or_ne k cs with rfl | hkcs
      · exact hfincs
      · refine hfin' k hk hkcs ?_ ?_ ?_
        · exact fun hh => hks hh
        · exact fun hh => hkl (hh ▸ List.mem_cons_self cl large')
        · exact fun hh => hkl (List.mem_cons_of_mem cl hh)
    · intro j hj
      rw [massTo, aliasMass]
      exact hmass' _ _ hQ j hj
    · rw [(List.perm_middle.map (Function.update np cl v)).sum_eq,
        List.map_cons, List.sum_cons, hT, Function.update_same,
        List.perm_middle.length_eq, List.length_cons]
      push_cast
      rw [List.length_append] at *
      push_cast at *
      linarith

/-- Helper: the pairing loop preserves the invariant. -/
theorem aliasLoop_inv (n : ℕ) (np₀ : ℕ → ℚ) :
    ∀ (fuel : ℕ) (s : AliasState), AliasInv n np₀ s →
      AliasInv n np₀ (aliasLoop fuel s) := by
  intro fuel
  induction fuel with
  | zero => intro s h; exact h
  | succ fuel ih =>
    intro s h
    obtain ⟨np, pb, al, sm, lg⟩ := s
    cases sm with
    | nil => exact h
    | cons cs small' =>
      cases lg with
      | nil => exact h
      | cons cl large' =>
        exact ih _ (aliasStep_inv n np₀ np pb al cs cl small' large' h)

/-- Helper: with fuel at least the total queue length, the pairing loop
drains one of the two stacks. -/
theorem aliasLoop_ends :
    ∀ (fuel : ℕ) (s : AliasState),
      s.small.length + s.large.length ≤ fuel →
      (aliasLoop fuel s).small = [] ∨ (aliasLoop fuel s).large = [] := by
  intro fuel
  induction fuel with
  | zero =>
    intro s hs
    have h1 : s.small = [] := List.eq_nil_of_length_eq_zero (by omega)
    exact Or.inl h1
  | succ fuel ih =>
    intro s hs
    obtain ⟨np, pb, al, sm, lg⟩ := s
    cases sm with
    | nil => exact Or.inl rfl
    | cons cs small' =>
      cases lg with
      | nil => exact Or.inr rfl
      | cons cl large' =>
        apply ih
        simp only [List.length_cons] at hs ⊢
        split <;> simp <;> omega

/-- Helper: the two stacks entering the pairing loop together hold all
`num_edges` indices. -/
theorem initQueues_length (w : List ℚ) :
    (initQueues w).1.length + (initQueues w).2.length = w.length := by
  rw [initQueues_eq]
  have h := (List.filter_append_perm
    (fun k => decide (initNormProb w k < 1)) (List.range w.length)).length_eq
  simpa [List.length_append] using h

/-- The full specification of the finished alias table: every edge slot
holds a probability in [0,1]; a slot whose alias cell was never written has
`prob = 1`; an assigned alias cell holds a valid edge index; and the total
mass routed to each edge `j` is exactly its normalized weight. -/
theorem InitAliasTable_spec (w : List ℚ) (hw : ∀ x ∈ w, 0 < x) (hne : w ≠ [])
    (prob₀ : ℕ → ℚ) :
    (∀ k, k < w.length →
      0 ≤ (InitAliasTable prob₀ w).prob k ∧ (InitAliasTable prob₀ w).prob k ≤ 1 ∧
      (((InitAliasTable prob₀ w).aliasTable k = none ∧
          (InitAliasTable prob₀ w).prob k = 1) ∨
        (∃ l, (InitAliasTable prob₀ w).aliasTable k = some l ∧ l < w.length))) ∧
    (∀ j, j < w.length →
      (InitAliasTable prob₀ w).prob j +
        aliasMass (InitAliasTable prob₀ w) w.length j = initNormProb w j) := by
  set n := w.length with hn
  set s0 : AliasState :=
    { normProb := initNormProb w
      prob := prob₀
      aliasTable := fun _ => none
      small := (initQueues w).1
      large := (initQueues w).2 } with hs0
  set s1 := aliasLoop n s0 with hs1
  have hinv : AliasInv n (initNormProb w) s1 :=
    aliasLoop_inv n (initNormProb w) n s0 (aliasInv_init w hw hne prob₀)
  have hend : s1.small = [] ∨ s1.large = [] := by
    apply aliasLoop_ends
    rw [hs0]
    simp only
    rw [initQueues_length]
  -- in exact arithmetic the small stack always drains first
  have hSnil : s1.small = [] := by
    rcases hend with h | h
    · exact h
    · by_contra hne2
      have hsq := hinv.sum_queued
      rw [h, List.append_nil] at hsq
      have hlt := list_sum_lt_length s1.normProb s1.small hne2
        (fun k hk => hinv.small_lt k hk)
      rw [hsq] at hlt
      exact lt_irrefl _ hlt
  -- every block left on the large stack has normalized weight exactly 1
  have hLone : ∀ k ∈ s1.large, s1.normProb k = 1 := by
    have hsq := hinv.sum_queued
    rw [hSnil, List.nil_append] at hsq
    exact list_all_eq_one s1.normProb s1.large
      (fun k hk => hinv.large_ge k hk) hsq
  have hfinal : InitAliasTable prob₀ w =
      { normProb := s1.normProb
        prob := setProbOne s1.small (setProbOne s1.large s1.prob)
        aliasTable := s1.aliasTable
        small := []
        large := [] } := rfl
  have hprobf : ∀ k,
      (InitAliasTable prob₀ w).prob k =
        setProbOne s1.large s1.prob k := by
    intro k
    rw [hfinal]
    simp only
    rw [hSnil]
    rfl
  have haliasf : ∀ k,
      (InitAliasTable prob₀ w).aliasTable k = s1.aliasTable k := by
    intro k
    rw [hfinal]
  -- alias cells are written only for finalized slots
  have halias_notmem : ∀ k, s1.aliasTable k ≠ none → k ∉ s1.large := by
    intro k hk hmem
    exact hk (hinv.alias_queued k (by rw [hSnil]; simpa using hmem))
  have hAMf : ∀ j, aliasMass (InitAliasTable prob₀ w) n j = aliasMass s1 n j := by
    intro j
    rw [aliasMass, aliasMass]
    refine Finset.sum_congr rfl ?_
    intro k _
    rw [haliasf k]
    by_cases hal : s1.aliasTable k = some j
    · rw [if_pos hal, if_pos hal, hprobf k,
        setProbOne_not_mem k s1.large s1.prob
          (halias_notmem k (by rw [hal]; simp))]
    · rw [if_neg hal, if_neg hal]
  constructor
  · intro k hk
    by_cases hkL : k ∈ s1.large
    · have hp1 : (InitAliasTable prob₀ w).prob k = 1 := by
        rw [hprobf k]
        exact setProbOne_mem k s1.large s1.prob hkL
      have han : (InitAliasTable prob₀ w).aliasTable k = none := by
        rw [haliasf k]
        exact hinv.alias_queued k (by rw [hSnil]; simpa using hkL)
      rw [hp1]
      exact ⟨by norm_num, le_refl 1, Or.inl ⟨han, rfl⟩⟩
    · have hkS : k ∉ s1.small := by rw [hSnil]; simp
      obtain ⟨h0, h1, l, hal, hln⟩ := hinv.fin_prob k hk hkS hkL
      have hpk : (InitAliasTable prob₀ w).prob k = s1.prob k := by
        rw [hprobf k, setProbOne_not_mem k s1.large s1.prob hkL]
      rw [hpk]
      exact ⟨h0, h1, Or.inr ⟨l, by rw [haliasf k]; exact hal, hln⟩⟩
  · intro j hj
    have hm := hinv.mass j hj
    rw [massTo] at hm
    rw [hAMf j]
    by_cases hjL : j ∈ s1.large
    · rw [if_pos (Or.inr hjL)] at hm
      have hp1 : (InitAliasTable prob₀ w).prob j = 1 := by
        rw [hprobf j]
        exact setProbOne_mem j s1.large s1.prob hjL
      rw [hp1, ← hLone j hjL]
      exact hm
    · have hjS : j ∉ s1.small := by rw [hSnil]; simp
      rw [if_neg (by
        rintro (hh | hh)
        · exact hjS hh
        · exact hjL hh)] at hm
      have hpj : (InitAliasTable prob₀ w).prob j = s1.prob j := by
        rw [hprobf j, setProbOne_not_mem j s1.large s1.prob hjL]
      rw [hpj]
      exact hm

/-- Helper: the slot picked from a uniform draw. -/
theorem floor_slot_mem (n : ℕ) (hn : 0 < n) (r : ℝ) (h0 : 0 ≤ r) (h1 : r < 1) :
    (⌊(n:ℝ) * r⌋).toNat < n ∧
    ((⌊(n:ℝ) * r⌋).toNat : ℝ) / n ≤ r ∧
    r < (((⌊(n:ℝ) * r⌋).toNat : ℝ) + 1) / n := by
  have hn' : (0:ℝ) < n := by exact_mod_cast hn
  have hnn : (0:ℝ) ≤ (n:ℝ) * r := mul_nonneg hn'.le h0
  have hf0 : 0 ≤ ⌊(n:ℝ) * r⌋ := Int.floor_nonneg.mpr hnn
  have hcast : ((⌊(n:ℝ) * r⌋).toNat : ℝ) = (⌊(n:ℝ) * r⌋ : ℝ) := by
    exact_mod_cast Int.toNat_of_nonneg hf0
  have hle : (⌊(n:ℝ) * r⌋ : ℝ) ≤ (n:ℝ) * r := Int.floor_le _
  have hlt : (n:ℝ) * r < (⌊(n:ℝ) * r⌋ : ℝ) + 1 := Int.lt_floor_add_one _
  refine ⟨?_, ?_, ?_⟩
  · have : ⌊(n:ℝ) * r⌋ < (n : ℤ) := by
      rw [Int.floor_lt]
      push_cast
      nlinarith
    omega
  · rw [div_le_iff hn', hcast]
    linarith [hle]
  · rw [lt_div_iff hn', hcast]
    linarith [hlt]

/-- Helper: a draw inside the `k`-th strip selects slot `k`. -/
theorem floor_slot_eq (n k : ℕ) (r : ℝ) (hk : k < n)
    (h1 : (k:ℝ)/n ≤ r) (h2 : r < ((k:ℝ)+1)/n) :
    (⌊(n:ℝ) * r⌋).toNat = k := by
  have hn : 0 < n := by omega
  have hn' : (0:ℝ) < n := by exact_mod_cast hn
  have ha : (k:ℝ) ≤ (n:ℝ) * r := by
    rw [div_le_iff hn'] at h1
    linarith
  have hb : (n:ℝ) * r < (k:ℝ) + 1 := by
    rw [lt_div_iff hn'] at h2
    linarith
  have hfl : ⌊(n:ℝ) * r⌋ = (k : ℤ) := by
    rw [Int.floor_eq_iff]
    constructor <;> push_cast <;> linarith
  rw [hfl]
  simp

/-- Helper: the event `SampleAnEdge = j` decomposes into a finite union of
rectangles, one per table slot. -/
theorem sampleEvent_eq (n : ℕ) (hn : 0 < n) (prob : ℕ → ℚ)
    (aliasT : ℕ → Option ℕ) (hb : ∀ k, k < n → 0 ≤ prob k ∧ prob k ≤ 1)
    (j : ℕ) :
    sampleEvent n prob aliasT j =
      ⋃ k ∈ Finset.range n,
        (Set.Ico ((k : ℝ)/n) (((k : ℝ)+1)/n)) ×ˢ
          ((if j = k then Set.Ico (0:ℝ) ((prob k : ℝ)) else ∅) ∪
            (if aliasT k = some j then Set.Ico ((prob k : ℝ)) 1 else ∅)) := by
  ext p
  simp only [sampleEvent, Set.mem_setOf_eq, Set.mem_iUnion, Finset.mem_range,
    Set.mem_prod, exists_prop]
  constructor
  · rintro ⟨⟨h10, h11⟩, ⟨h20, h21⟩, hs⟩
    obtain ⟨hlt, hle, hlt2⟩ := floor_slot_mem n hn p.1 h10 h11
    set k := (⌊(n:ℝ) * p.1⌋).toNat with hk
    refine ⟨k, hlt, ⟨hle, hlt2⟩, ?_⟩
    rw [SampleAnEdge] at hs
    simp only [← hk] at hs
    by_cases hcmp : p.2 < ((prob k : ℝ))
    · rw [if_pos hcmp] at hs
      have : j = k := (Option.some.injEq _ _).mp hs.symm
      left
      rw [if_pos this]
      exact ⟨h20, hcmp⟩
    · rw [if_neg hcmp] at hs
      right
      rw [if_pos hs]
      exact ⟨not_lt.mp hcmp, h21⟩
  · rintro ⟨k, hkn, ⟨hle, hlt⟩, hmem⟩
    have hn' : (0:ℝ) < n := by exact_mod_cast hn
    have hk0 : (0:ℝ) ≤ (k:ℝ)/n := by positivity
    have hk1 : ((k:ℝ)+1)/n ≤ 1 := by
      rw [div_le_one hn']
      exact_mod_cast hkn
    have hfl : (⌊(n:ℝ) * p.1⌋).toNat = k := floor_slot_eq n k p.1 hkn hle hlt
    obtain ⟨hp0, hp1⟩ := hb k hkn
    have hp2 : p.2 ∈ Set.Ico (0:ℝ) 1 := by
      rcases hmem with hm | hm
      · rcases eq_or_ne j k with hjk | hne
        · rw [if_pos hjk] at hm
          rcases hm with ⟨hm0, hm1⟩
          constructor
          · exact hm0
          · calc p.2 < ((prob k : ℝ)) := hm1
              _ ≤ 1 := by exact_mod_cast hp1
        · rw [if_neg hne] at hm
          exact absurd hm (Set.not_mem_empty _)
      · by_cases hal : aliasT k = some j
        · rw [if_pos hal] at hm
          rcases hm with ⟨hm0, hm1⟩
          constructor
          · calc (0:ℝ) ≤ ((prob k : ℝ)) := by exact_mod_cast hp0
              _ ≤ p.2 := hm0
          · exact hm1
        · rw [if_neg hal] at hm
          exact absurd hm (Set.not_mem_empty _)
    refine ⟨⟨le_trans hk0 hle, lt_of_lt_of_le hlt hk1⟩, hp2, ?_⟩
    rw [SampleAnEdge]
    simp only [hfl]
    rcases hmem with hm | hm
    · rcases eq_or_ne j k with hjk | hne
      · rw [if_pos hjk] at hm
        rw [if_pos hm.2, hjk]
      · rw [if_neg hne] at hm
        exact absurd hm (Set.not_mem_empty _)
    · by_cases hal : aliasT k = some j
      · rw [if_pos hal] at hm
        rw [if_neg (not_lt.mpr hm.1)]
        exact hal
      · rw [if_neg hal] at hm
        exact absurd hm (Set.not_mem_empty _)

/-- C1: for positive weights, the Lebesgue measure of the set of uniform
pairs `(r1, r2)` on which `SampleAnEdge` returns edge `j` is exactly
`w[j] / sum(w)` — the alias table built by `InitAliasTable` reproduces the
categorical distribution proportional to the edge weights, for any junk
content `prob₀` the `prob` array held before construction. -/
theorem alias_method_exact_distribution (w : List ℚ) (hw : ∀ x ∈ w, 0 < x)
    (hne : w ≠ []) (prob₀ : ℕ → ℚ) (j : ℕ) (hj : j < w.length) :
    MeasureTheory.volume
      (sampleEvent w.length (InitAliasTable prob₀ w).prob
        (InitAliasTable prob₀ w).aliasTable j) =
      ENNReal.ofReal (((w.getD j 0 : ℚ) : ℝ) / ((w.sum : ℚ) : ℝ)) := by
  obtain ⟨hslots, hmass⟩ := InitAliasTable_spec w hw hne prob₀
  set n := w.length with hn0
  set pb := (InitAliasTable prob₀ w).prob with hpb
  set al := (InitAliasTable prob₀ w).aliasTable with hal
  have hn : 0 < n := List.length_pos.mpr hne
  have hn' : (0:ℝ) < n := by exact_mod_cast hn
  have hb : ∀ k, k < n → 0 ≤ pb k ∧ pb k ≤ 1 :=
    fun k hk => ⟨(hslots k hk).1, (hslots k hk).2.1⟩
  rw [sampleEvent_eq n hn pb al hb j]
  have hdisj : Set.PairwiseDisjoint (↑(Finset.range n))
      (fun k : ℕ => (Set.Ico ((k : ℝ)/n) (((k : ℝ)+1)/n)) ×ˢ
        ((if j = k then Set.Ico (0:ℝ) ((pb k : ℝ)) else ∅) ∪
          (if al k = some j then Set.Ico ((pb k : ℝ)) 1 else ∅))) := by
    intro a ha b hb2 hab
    rw [Function.onFun, Set.disjoint_left]
    intro p hpa hpb2
    have ha' : a < n := Finset.mem_range.mp (Finset.mem_coe.mp ha)
    have hb' : b < n := Finset.mem_range.mp (Finset.mem_coe.mp hb2)
    have h1 := (Set.mem_prod.mp hpa).1
    have h2 := (Set.mem_prod.mp hpb2).1
    have e1 := floor_slot_eq n a p.1 ha' h1.1 h1.2
    have e2 := floor_slot_eq n b p.1 hb' h2.1 h2.2
    exact hab (e1 ▸ e2)
  have hmeas : ∀ k ∈ Finset.range n,
      MeasurableSet ((Set.Ico ((k : ℝ)/n) (((k : ℝ)+1)/n)) ×ˢ
        ((if j = k then Set.Ico (0:ℝ) ((pb k : ℝ)) else ∅) ∪
          (if al k = some j then Set.Ico ((pb k : ℝ)) 1 else ∅))) := by
    intro k _
    refine MeasurableSet.prod measurableSet_Ico (MeasurableSet.union ?_ ?_) <;>
      split <;> first | exact measurableSet_Ico | exact MeasurableSet.empty
  rw [MeasureTheory.measure_biUnion_finset hdisj hmeas]
  have hterm : ∀ k ∈ Finset.range n,
      MeasureTheory.volume
        ((Set.Ico ((k : ℝ)/n) (((k : ℝ)+1)/n)) ×ˢ
          ((if j = k then Set.Ico (0:ℝ) ((pb k : ℝ)) else ∅) ∪
            (if al k = some j then Set.Ico ((pb k : ℝ)) 1 else ∅))) =
      ENNReal.ofReal ((1/(n:ℝ)) *
        ((if j = k then (pb k : ℝ) else 0) +
          (if al k = some j then 1 - (pb k : ℝ) else 0))) := by
    intro k hk
    have hkn : k < n := Finset.mem_range.mp hk
    obtain ⟨hp0, hp1⟩ := hb k hkn
    have hp0' : (0:ℝ) ≤ (pb k : ℝ) := by exact_mod_cast hp0
    have hp1' : (pb k : ℝ) ≤ 1 := by exact_mod_cast hp1
    rw [MeasureTheory.Measure.volume_eq_prod, MeasureTheory.Measure.prod_prod]
    have hstrip : MeasureTheory.volume (Set.Ico ((k : ℝ)/n) (((k : ℝ)+1)/n)) =
        ENNReal.ofReal (1/(n:ℝ)) := by
      rw [Real.volume_Ico]
      congr 1
      field_simp
    have hslot : MeasureTheory.volume
        ((if j = k then Set.Ico (0:ℝ) ((pb k : ℝ)) else ∅) ∪
          (if al k = some j then Set.Ico ((pb k : ℝ)) 1 else ∅)) =
        ENNReal.ofReal ((if j = k then (pb k : ℝ) else 0) +
          (if al k = some j then 1 - (pb k : ℝ) else 0)) := by
      rcases eq_or_ne j k with hjk | hjk
      · rw [if_pos hjk, if_pos hjk]
        by_cases halk : al k = some j
        · rw [if_pos halk, if_pos halk,
            MeasureTheory.measure_union
              (Set.Ico_disjoint_Ico_same) measurableSet_Ico,
            Real.volume_Ico, Real.volume_Ico, sub_zero,
            ← ENNReal.ofReal_add hp0' (by linarith)]
        · rw [if_neg halk, if_neg halk, Set.union_empty, Real.volume_Ico,
            sub_zero, add_zero]
      · rw [if_neg hjk, if_neg hjk, Set.empty_union]
        by_cases halk : al k = some j
        · rw [if_pos halk, if_pos halk, Real.volume_Ico, zero_add]
        · rw [if_neg halk, if_neg halk, MeasureTheory.measure_empty]
          norm_num
    rw [hstrip, hslot, ← ENNReal.ofReal_mul (by positivity)]
  rw [Finset.sum_congr rfl hterm]
  rw [← ENNReal.ofReal_sum_of_nonneg (by
    intro k hk
    have hkn : k < n := Finset.mem_range.mp hk
    obtain ⟨hp0, hp1⟩ := hb k hkn
    have hp0' : (0:ℝ) ≤ (pb k : ℝ) := by exact_mod_cast hp0
    have hp1' : (pb k : ℝ) ≤ 1 := by exact_mod_cast hp1
    have h1 : (0:ℝ) ≤ (if j = k then (pb k : ℝ) else 0) := by
      split <;> linarith
    have h2 : (0:ℝ) ≤ (if al k = some j then 1 - (pb k : ℝ) else 0) := by
      split <;> linarith
    positivity)]
  congr 1
  rw [← Finset.mul_sum, Finset.sum_add_distrib, Finset.sum_ite_eq,
    if_pos (Finset.mem_range.mpr hj)]
  have hAMcast : ∑ k ∈ Finset.range n,
      (if al k = some j then 1 - (pb k : ℝ) else 0) =
      ((aliasMass (InitAliasTable prob₀ w) n j : ℚ) : ℝ) := by
    rw [aliasMass, Rat.cast_sum]
    refine Finset.sum_congr rfl ?_
    intro k _
    show (if al k = some j then 1 - ((pb k : ℚ) : ℝ) else 0) =
      (((if al k = some j then 1 - pb k else 0 : ℚ)) : ℝ)
    split <;> push_cast <;> ring
  rw [hAMcast]
  have hm := hmass j hj
  rw [initNormProb] at hm
  have h2 : ((pb j : ℚ) : ℝ) + ((aliasMass (InitAliasTable prob₀ w) n j : ℚ) : ℝ) =
      (((w.getD j 0 * (w.length : ℚ) / w.sum : ℚ)) : ℝ) := by
    rw [← Rat.cast_add]
    exact congrArg Rat.cast hm
  rw [h2, Rat.cast_div, Rat.cast_mul, Rat.cast_natCast]
  have hsum : ((w.sum : ℚ) : ℝ) ≠ 0 := by
    have hpos : (0:ℚ) < w.sum := List.sum_pos w hw hne
    positivity
  have hnne : ((w.length : ℕ) : ℝ) ≠ 0 := by
    have hq : (0:ℝ) < ((w.length : ℕ) : ℝ) := by
      rw [← hn0]
      exact hn'
    exact ne_of_gt hq
  rw [hn0]
  field_simp

/-- C10: for positive weights and any junk initial `prob` content, sampling
with two uniform draws always yields a valid edge index; a slot with
`prob = 1` (in particular every slot whose alias cell was never written)
returns itself because `r2 < 1 ≤ prob[k]`; and any alias cell that can be
read (`prob[k] < 1`) was assigned a valid edge index during construction. -/
theorem sample_always_valid (w : List ℚ) (hw : ∀ x ∈ w, 0 < x) (hne : w ≠ [])
    (prob₀ : ℕ → ℚ) (r1 r2 : ℝ)
    (hr1 : r1 ∈ Set.Ico (0:ℝ) 1) (hr2 : r2 ∈ Set.Ico (0:ℝ) 1) :
    (∃ j, j < w.length ∧
      SampleAnEdge w.length (InitAliasTable prob₀ w).prob
        (InitAliasTable prob₀ w).aliasTable r1 r2 = some j) ∧
    (∀ k, k < w.length → 1 ≤ (InitAliasTable prob₀ w).prob k →
      (⌊(w.length : ℝ) * r1⌋).toNat = k →
      SampleAnEdge w.length (InitAliasTable prob₀ w).prob
        (InitAliasTable prob₀ w).aliasTable r1 r2 = some k) ∧
    (∀ k, k < w.length → (InitAliasTable prob₀ w).prob k < 1 →
      ∃ l, (InitAliasTable prob₀ w).aliasTable k = some l ∧ l < w.length) := by
  obtain ⟨hslots, _⟩ := InitAliasTable_spec w hw hne prob₀
  have hn : 0 < w.length := List.length_pos.mpr hne
  obtain ⟨hklt, -, -⟩ := floor_slot_mem w.length hn r1 hr1.1 hr1.2
  refine ⟨?_, ?_, ?_⟩
  · set k := (⌊(w.length : ℝ) * r1⌋).toNat with hk
    obtain ⟨hp0, hp1, hcase⟩ := hslots k hklt
    rw [SampleAnEdge]
    simp only [← hk]
    by_cases hcmp : r2 < ((InitAliasTable prob₀ w).prob k : ℝ)
    · exact ⟨k, hklt, by rw [if_pos hcmp]⟩
    · have hplt : (InitAliasTable prob₀ w).prob k < 1 := by
        have : ((InitAliasTable prob₀ w).prob k : ℝ) ≤ r2 := not_lt.mp hcmp
        have h2 := hr2.2
        have : ((InitAliasTable prob₀ w).prob k : ℝ) < 1 := lt_of_le_of_lt this h2
        exact_mod_cast this
      rcases hcase with ⟨-, hp1'⟩ | ⟨l, hal, hln⟩
      · exact absurd hp1' (ne_of_lt hplt)
      · exact ⟨l, hln, by rw [if_neg hcmp]; exact hal⟩
  · intro k hkn hpk hfl
    rw [SampleAnEdge]
    simp only [hfl]
    rw [if_pos (by
      calc r2 < 1 := hr2.2
        _ ≤ ((InitAliasTable prob₀ w).prob k : ℝ) := by exact_mod_cast hpk)]
  · intro k hkn hpk
    obtain ⟨-, -, hcase⟩ := hslots k hkn
    rcases hcase with ⟨-, hp1'⟩ | hsome
    · exact absurd hp1' (ne_of_lt hpk)
    · exact hsome

/-- Witness for C1 at weights `[1,2,3,4]`, edge `j = 1`, junk `prob₀ = 0`. -/
theorem alias_method_exact_distribution_witness :
    (∀ x ∈ [(1:ℚ), 2, 3, 4], 0 < x) ∧ ([(1:ℚ), 2, 3, 4] ≠ []) ∧
    (1 < [(1:ℚ), 2, 3, 4].length) ∧
    MeasureTheory.volume
      (sampleEvent [(1:ℚ), 2, 3, 4].length
        (InitAliasTable (fun _ => 0) [(1:ℚ), 2, 3, 4]).prob
        (InitAliasTable (fun _ => 0) [(1:ℚ), 2, 3, 4]).aliasTable 1) =
      ENNReal.ofReal ((([(1:ℚ), 2, 3, 4].getD 1 0 : ℚ) : ℝ) /
        (([(1:ℚ), 2, 3, 4].sum : ℚ) : ℝ)) :=
  ⟨by norm_num, List.cons_ne_nil _ _, by norm_num,
    alias_method_exact_distribution [(1:ℚ), 2, 3, 4] (by norm_num)
      (List.cons_ne_nil _ _) (fun _ => 0) 1 (by norm_num)⟩

/-- Witness for C10 at weights `[1,2,3,4]`, draws `r1 = r2 = 1/2`. -/
theorem sample_always_valid_witness :
    (∀ x ∈ [(1:ℚ), 2, 3, 4], 0 < x) ∧ ([(1:ℚ), 2, 3, 4] ≠ []) ∧
    ((1:ℝ)/2) ∈ Set.Ico (0:ℝ) 1 ∧
    (∃ j, j < [(1:ℚ), 2, 3, 4].length ∧
      SampleAnEdge [(1:ℚ), 2, 3, 4].length
        (InitAliasTable (fun _ => 0) [(1:ℚ), 2, 3, 4]).prob
        (InitAliasTable (fun _ => 0) [(1:ℚ), 2, 3, 4]).aliasTable
        ((1:ℝ)/2) ((1:ℝ)/2) = some j) :=
  ⟨by norm_num, List.cons_ne_nil _ _, by constructor <;> norm_num,
    ((sample_always_valid [(1:ℚ), 2, 3, 4] (by norm_num) (List.cons_ne_nil _ _)
      (fun _ => 0) ((1:ℝ)/2) ((1:ℝ)/2)
      (by constructor <;> norm_num) (by constructor <;> norm_num))).1⟩

/-- Helper: `negPow` of a nonnegative degree is nonnegative. -/
theorem negPow_nonneg (d : ℝ) (hd : 0 ≤ d) : 0 ≤ negPow d :=
  Real.rpow_nonneg hd _

/-- Helper: one step of the cumulative mass. -/
theorem cumNeg_succ (degree : List ℝ) (i : ℕ) (hi : i < degree.length) :
    cumNeg degree (i + 1) = cumNeg degree i + negPow (degree.getD i 0) := by
  rw [cumNeg, cumNeg, List.take_succ, List.map_append, List.sum_append]
  congr 1
  rw [List.getElem?_eq_getElem hi]
  simp only [Option.toList_some, List.map_cons, List.map_nil, List.sum_cons,
    List.sum_nil, add_zero]
  rw [List.getD_eq_getElem degree 0 hi]

/-- Helper: the cumulative mass saturates at the total. -/
theorem cumNeg_of_le (degree : List ℝ) (i : ℕ) (hi : degree.length ≤ i) :
    cumNeg degree i = (degree.map negPow).sum := by
  rw [cumNeg, List.take_of_length_le hi]

/-- Helper: the cumulative mass is monotone for nonnegative degrees. -/
theorem cumNeg_mono (degree : List ℝ) (hd : ∀ x ∈ degree, 0 ≤ x) :
    Monotone (cumNeg degree) := by
  apply monotone_nat_of_le_succ
  intro i
  rcases lt_or_ge i degree.length with hi | hi
  · rw [cumNeg_succ degree i hi]
    have : 0 ≤ negPow (degree.getD i 0) := by
      apply negPow_nonneg
      rw [List.getD_eq_getElem degree 0 hi]
      exact hd _ (List.getElem_mem hi)
    linarith
  · rw [cumNeg_of_le degree i hi, cumNeg_of_le degree (i + 1) (by omega)]

/-- Helper: basic invariant of the `InitNegTable` loop: `cur_sum` is the
cumulative mass of the first `vid` vertices, `vid` never exceeds the vertex
count, and from slot 0 on `vid ≥ 1`. -/
theorem negState_inv (degree : List ℝ) (hd : ∀ x ∈ degree, 0 ≤ x)
    (hs : 0 < (degree.map negPow).sum) :
    ∀ k, k ≤ neg_table_size →
      (negState degree k).2 = cumNeg degree (negState degree k).1 ∧
      (negState degree k).1 ≤ degree.length ∧
      (1 ≤ k → 1 ≤ (negState degree k).1) := by
  have hT : (0:ℝ) < (neg_table_size : ℝ) := by
    rw [neg_table_size]
    norm_num
  intro k
  induction k with
  | zero =>
    intro _
    refine ⟨?_, ?_, ?_⟩
    · rw [negState, cumNeg]
      simp
    · rw [negState]
      simp
    · omega
  | succ k ih =>
    intro hk
    obtain ⟨hA, hB, hC⟩ := ih (by omega)
    have hstep : negState degree (k + 1) =
        if ((k : ℝ) + 1) / (neg_table_size : ℝ) >
            (negState degree k).2 / ((degree.map negPow).sum) then
          ((negState degree k).1 + 1,
            (negState degree k).2 + negPow (degree.getD (negState degree k).1 0))
        else negState degree k := rfl
    by_cases hcond : ((k : ℝ) + 1) / (neg_table_size : ℝ) >
        (negState degree k).2 / ((degree.map negPow).sum)
    · rw [hstep, if_pos hcond]
      have hvlt : (negState degree k).1 < degree.length := by
        rcases lt_or_ge (negState degree k).1 degree.length with h | h
        · exact h
        · exfalso
          rw [hA, cumNeg_of_le degree _ h, div_self (ne_of_gt hs)] at hcond
          have hge : ((k : ℝ) + 1) / (neg_table_size : ℝ) ≤ 1 := by
            rw [div_le_one hT]
            have : (k : ℝ) + 1 ≤ (neg_table_size : ℝ) := by
              exact_mod_cast hk
            linarith
          linarith
      refine ⟨?_, by omega, fun _ => by omega⟩
      simp only
      rw [hA, cumNeg_succ degree _ hvlt]
    · rw [hstep, if_neg hcond]
      refine ⟨hA, hB, fun _ => ?_⟩
      apply hC
      by_contra hcand
      push_neg at hcand
      have hk0 : k = 0 := by omega
      subst hk0
      have : (negState degree 0).1 = 0 ∧ (negState degree 0).2 = 0 := by
        rw [negState]
        exact ⟨rfl, rfl⟩
      rw [this.2] at hcond
      apply hcond
      rw [zero_div]
      positivity

/-- Helper: when every vertex share is at least one slot width, after `k ≥ 1`
slots the cumulative share of the first `vid` vertices has reached `k/T`
while the share up to `vid - 1` has not. -/
theorem negState_char (degree : List ℝ) (hd : ∀ x ∈ degree, 0 ≤ x)
    (hs : 0 < (degree.map negPow).sum)
    (hH : ∀ v, v < degree.length →
      1 / (neg_table_size : ℝ) ≤ negShare degree v) :
    ∀ k, 1 ≤ k → k ≤ neg_table_size →
      (k : ℝ) / (neg_table_size : ℝ) ≤
        cumShare degree (negState degree k).1 ∧
      cumShare degree ((negState degree k).1 - 1) <
        (k : ℝ) / (neg_table_size : ℝ) := by
  have hT : (0:ℝ) < (neg_table_size : ℝ) := by
    rw [neg_table_size]
    norm_num
  have hn : 0 < degree.length := by
    by_contra hcon
    push_neg at hcon
    interval_cases hlen : degree.length
    · rw [List.length_eq_zero] at hlen
      rw [hlen] at hs
      simp at hs
  have hshare : ∀ v, v < degree.length →
      cumShare degree (v + 1) = cumShare degree v + negShare degree v := by
    intro v hv
    rw [cumShare, cumShare, negShare, cumNeg_succ degree v hv, add_div]
  have hcum0 : cumShare degree 0 = 0 := by
    rw [cumShare, cumNeg]
    simp
  have hcum_top : ∀ i, degree.length ≤ i → cumShare degree i = 1 := by
    intro i hi
    rw [cumShare, cumNeg_of_le degree i hi, div_self (ne_of_gt hs)]
  intro k
  induction k with
  | zero => omega
  | succ k ih =>
    intro _ hk1
    obtain ⟨hA, hB, -⟩ := negState_inv degree hd hs k (by omega)
    have hfire_iff : (((k : ℝ) + 1) / (neg_table_size : ℝ) >
        (negState degree k).2 / ((degree.map negPow).sum)) ↔
        cumShare degree (negState degree k).1 <
          ((k : ℝ) + 1) / (neg_table_size : ℝ) := by
      rw [hA, cumShare]
    have hstep : negState degree (k + 1) =
        if ((k : ℝ) + 1) / (neg_table_size : ℝ) >
            (negState degree k).2 / ((degree.map negPow).sum) then
          ((negState degree k).1 + 1,
            (negState degree k).2 + negPow (degree.getD (negState degree k).1 0))
        else negState degree k := rfl
    rcases Nat.eq_zero_or_pos k with hbase | hkpos
    · -- base case: slot 0 always fires
      subst hbase
      have hfire : (((0:ℕ) : ℝ) + 1) / (neg_table_size : ℝ) >
          (negState degree 0).2 / ((degree.map negPow).sum) := by
        have h02 : (negState degree 0).2 = 0 := rfl
        rw [h02, zero_div]
        positivity
      rw [hstep, if_pos hfire]
      have h01 : (negState degree 0).1 = 0 := rfl
      simp only [h01]
      constructor
      · push_cast
        calc (1:ℝ) / (neg_table_size : ℝ) ≤ negShare degree 0 := hH 0 hn
          _ = cumShare degree 1 := by
            rw [hshare 0 hn, hcum0, zero_add]
          _ = cumShare degree (0 + 1) := by norm_num
      · simp only [h01, Nat.add_sub_cancel, hcum0]
        positivity
    · -- inductive step, k ≥ 1
      have hk : 1 ≤ k := by omega
      obtain ⟨ihU, ihL⟩ := ih hk (by omega)
      have hsucc_div : ((k : ℝ) + 1) / (neg_table_size : ℝ) =
          (k : ℝ) / (neg_table_size : ℝ) + 1 / (neg_table_size : ℝ) := by
        rw [div_add_div_same]
      by_cases hfire : ((k : ℝ) + 1) / (neg_table_size : ℝ) >
          (negState degree k).2 / ((degree.map negPow).sum)
      · have hstrict := hfire_iff.mp hfire
        have hvlt : (negState degree k).1 < degree.length := by
          rcases lt_or_ge (negState degree k).1 degree.length with h | h
          · exact h
          · exfalso
            rw [hcum_top _ h] at hstrict
            have hcast : ((k : ℝ) + 1) ≤ (neg_table_size : ℝ) := by
              exact_mod_cast hk1
            rw [one_lt_div hT] at hstrict
            linarith
        rw [hstep, if_pos hfire]
        simp only
        constructor
        · rw [hshare _ hvlt]
          push_cast
          have h1 := hH _ hvlt
          linarith [hsucc_div, ihU]
        · rw [Nat.add_sub_cancel]
          push_cast
          exact hstrict
      · have hge := hfire_iff.not.mp hfire
        push_neg at hge
        rw [hstep, if_neg hfire]
        constructor
        · push_cast
          exact hge
        · push_cast
          calc cumShare degree ((negState degree k).1 - 1) <
              (k : ℝ) / (neg_table_size : ℝ) := ihL
            _ ≤ ((k : ℝ) + 1) / (neg_table_size : ℝ) := by
              exact (div_le_div_right hT).mpr (by linarith)

/-- Helper: every table slot holds a valid vertex id (no hypothesis beyond
a positive total mass). -/
theorem InitNegTable_valid (degree : List ℝ) (hd : ∀ x ∈ degree, 0 ≤ x)
    (hs : 0 < (degree.map negPow).sum) :
    ∀ k, k < neg_table_size → InitNegTable degree k < degree.length := by
  intro k hk
  have hn : 0 < degree.length := by
    by_contra hcon
    push_neg at hcon
    interval_cases hlen : degree.length
    · rw [List.length_eq_zero] at hlen
      rw [hlen] at hs
      simp at hs
  obtain ⟨-, hB, hC⟩ := negState_inv degree hd hs (k + 1) (by omega)
  rw [InitNegTable]
  have h1 := hC (by omega)
  omega

/-- Helper: `cumShare` is monotone. -/
theorem cumShare_mono (degree : List ℝ) (hd : ∀ x ∈ degree, 0 ≤ x)
    (hs : 0 < (degree.map negPow).sum) : Monotone (cumShare degree) := by
  intro a b hab
  rw [cumShare, cumShare]
  exact (div_le_div_right hs).mpr (cumNeg_mono degree hd hab)

/-- Helper: under the share hypothesis every slot holds the vertex whose
cumulative share first reaches `(k+1)/tableSize`. -/
theorem InitNegTable_eq_firstReaches (degree : List ℝ)
    (hd : ∀ x ∈ degree, 0 ≤ x) (hs : 0 < (degree.map negPow).sum)
    (hH : ∀ v, v < degree.length →
      1 / (neg_table_size : ℝ) ≤ negShare degree v) :
    ∀ k, k < neg_table_size →
      InitNegTable degree k = firstReachesVertex degree k := by
  intro k hk
  obtain ⟨hU, hL⟩ := negState_char degree hd hs hH (k + 1) (by omega) (by omega)
  obtain ⟨-, -, hC⟩ := negState_inv degree hd hs (k + 1) (by omega)
  have hvid1 : 1 ≤ (negState degree (k + 1)).1 := hC (by omega)
  push_cast at hU hL
  rw [InitNegTable, firstReachesVertex]
  have hmem : (negState degree (k + 1)).1 - 1 ∈
      {i : ℕ | ((k : ℝ) + 1) / (neg_table_size : ℝ) ≤ cumShare degree (i + 1)} := by
    show ((k : ℝ) + 1) / (neg_table_size : ℝ) ≤
      cumShare degree ((negState degree (k + 1)).1 - 1 + 1)
    rw [Nat.sub_add_cancel hvid1]
    exact hU
  have hlow : ∀ i, i < (negState degree (k + 1)).1 - 1 →
      i ∉ {i : ℕ | ((k : ℝ) + 1) / (neg_table_size : ℝ) ≤ cumShare degree (i + 1)} := by
    intro i hi hmem2
    have h1 : cumShare degree (i + 1) ≤
        cumShare degree ((negState degree (k + 1)).1 - 1) :=
      cumShare_mono degree hd hs (by omega)
    have h2 : ((k : ℝ) + 1) / (neg_table_size : ℝ) ≤
        cumShare degree ((negState degree (k + 1)).1 - 1) :=
      le_trans hmem2 h1
    linarith
  have h1 : sInf {i : ℕ | ((k : ℝ) + 1) / (neg_table_size : ℝ) ≤
      cumShare degree (i + 1)} ≤ (negState degree (k + 1)).1 - 1 :=
    Nat.sInf_le hmem
  have h2 : ¬ sInf {i : ℕ | ((k : ℝ) + 1) / (neg_table_size : ℝ) ≤
      cumShare degree (i + 1)} < (negState degree (k + 1)).1 - 1 := by
    intro hlt
    exact hlow _ hlt (Nat.sInf_mem ⟨_, hmem⟩)
  omega

/-- Helper: one vertex advances the cumulative share by its own share. -/
theorem cumShare_succ (degree : List ℝ) (v : ℕ) (hv : v < degree.length) :
    cumShare degree (v + 1) = cumShare degree v + negShare degree v := by
  rw [cumShare, cumShare, negShare, cumNeg_succ degree v hv, add_div]

/-- Helper: the zeroth cumulative share vanishes. -/
theorem cumShare_zero (degree : List ℝ) : cumShare degree 0 = 0 := by
  rw [cumShare, cumNeg]
  simp

/-- Helper: the full cumulative share is 1. -/
theorem cumShare_length (degree : List ℝ)
    (hs : 0 < (degree.map negPow).sum) (i : ℕ) (hi : degree.length ≤ i) :
    cumShare degree i = 1 := by
  rw [cumShare, cumNeg_of_le degree i hi, div_self (ne_of_gt hs)]

/-- Helper: under the share hypothesis, the fraction of slots assigned to
each vertex is within `2/tableSize` of its normalized share. -/
theorem InitNegTable_tolerance (degree : List ℝ)
    (hd : ∀ x ∈ degree, 0 ≤ x) (hs : 0 < (degree.map negPow).sum)
    (hH : ∀ v, v < degree.length →
      1 / (neg_table_size : ℝ) ≤ negShare degree v) :
    ∀ v, v < degree.length →
      |((Finset.filter (fun k => InitNegTable degree k = v)
          (Finset.range neg_table_size)).card : ℝ) / (neg_table_size : ℝ) -
        negShare degree v| ≤ 2 / (neg_table_size : ℝ) := by
  have hT : (0:ℝ) < (neg_table_size : ℝ) := by
    rw [neg_table_size]
    norm_num
  intro v hv
  set c1 := cumShare degree v with hc1def
  set c2 := cumShare degree (v + 1) with hc2def
  have hshare_eq : negShare degree v = c2 - c1 := by
    rw [hc2def, cumShare_succ degree v hv, hc1def]
    ring
  have h0c1 : 0 ≤ c1 := by
    rw [hc1def, cumShare]
    have h0 : cumNeg degree 0 ≤ cumNeg degree v := cumNeg_mono degree hd (by omega)
    have h00 : cumNeg degree 0 = 0 := by
      rw [cumNeg]
      simp
    rw [h00] at h0
    positivity
  have hc12 : c1 ≤ c2 := cumShare_mono degree hd hs (by omega)
  have hc2le1 : c2 ≤ 1 := by
    rcases lt_or_ge (v + 1) degree.length with h | h
    · calc c2 ≤ cumShare degree degree.length :=
          cumShare_mono degree hd hs (by omega)
        _ = 1 := cumShare_length degree hs _ (le_refl _)
    · rw [hc2def, cumShare_length degree hs _ h]
  have hSne : ∀ k, k < neg_table_size →
      {i : ℕ | ((k : ℝ) + 1) / (neg_table_size : ℝ) ≤
        cumShare degree (i + 1)}.Nonempty := by
    intro k hk
    refine ⟨degree.length, ?_⟩
    show ((k : ℝ) + 1) / (neg_table_size : ℝ) ≤ cumShare degree (degree.length + 1)
    rw [cumShare_length degree hs _ (by omega)]
    rw [div_le_one hT]
    have : (k : ℝ) + 1 ≤ (neg_table_size : ℝ) := by exact_mod_cast hk
    linarith
  have hiff : ∀ k, k < neg_table_size →
      (InitNegTable degree k = v ↔
        (c1 < ((k:ℝ)+1)/(neg_table_size:ℝ) ∧
          ((k:ℝ)+1)/(neg_table_size:ℝ) ≤ c2)) := by
    intro k hk
    rw [InitNegTable_eq_firstReaches degree hd hs hH k hk, firstReachesVertex]
    constructor
    · intro hfv
      constructor
      · rcases Nat.eq_zero_or_pos v with rfl | hvpos
        · rw [hc1def, cumShare_zero]
          positivity
        · by_contra hcon
          push_neg at hcon
          have hmem : v - 1 ∈ {i : ℕ | ((k : ℝ) + 1) / (neg_table_size : ℝ) ≤
              cumShare degree (i + 1)} := by
            show ((k : ℝ) + 1) / (neg_table_size : ℝ) ≤ cumShare degree (v - 1 + 1)
            rw [Nat.sub_add_cancel hvpos]
            exact hcon
          have := Nat.sInf_le hmem
          omega
      · have hmem := Nat.sInf_mem (hSne k hk)
        rw [hfv] at hmem
        exact hmem
    · rintro ⟨h1, h2⟩
      have hmem : v ∈ {i : ℕ | ((k : ℝ) + 1) / (neg_table_size : ℝ) ≤
          cumShare degree (i + 1)} := h2
      have hlow : ∀ i, i < v →
          i ∉ {i : ℕ | ((k : ℝ) + 1) / (neg_table_size : ℝ) ≤
            cumShare degree (i + 1)} := by
        intro i hi hmem2
        have hmono : cumShare degree (i + 1) ≤ c1 := by
          rw [hc1def]
          exact cumShare_mono degree hd hs (by omega)
        have : ((k : ℝ) + 1) / (neg_table_size : ℝ) ≤ c1 := le_trans hmem2 hmono
        linarith
      have ha := Nat.sInf_le hmem
      have hb : ¬ sInf {i : ℕ | ((k : ℝ) + 1) / (neg_table_size : ℝ) ≤
          cumShare degree (i + 1)} < v := by
        intro hlt
        exact hlow _ hlt (Nat.sInf_mem ⟨v, hmem⟩)
      omega
  set f1 := Nat.floor ((neg_table_size:ℝ) * c1) with hf1def
  set f2 := Nat.floor ((neg_table_size:ℝ) * c2) with hf2def
  have hpos1 : 0 ≤ (neg_table_size:ℝ) * c1 := by positivity
  have hpos2 : 0 ≤ (neg_table_size:ℝ) * c2 := by
    have : (0:ℝ) ≤ c2 := le_trans h0c1 hc12
    positivity
  have hset : Finset.filter (fun k => InitNegTable degree k = v)
      (Finset.range neg_table_size) = Finset.Ico f1 f2 := by
    ext k
    simp only [Finset.mem_filter, Finset.mem_range, Finset.mem_Ico]
    constructor
    · rintro ⟨hk, hkv⟩
      obtain ⟨h1, h2⟩ := (hiff k hk).mp hkv
      have hq1 : c1 * (neg_table_size:ℝ) < (k:ℝ) + 1 := (lt_div_iff hT).mp h1
      have hq2 : (k:ℝ) + 1 ≤ c2 * (neg_table_size:ℝ) := (div_le_iff hT).mp h2
      constructor
      · have hfl : f1 < k + 1 := by
          rw [hf1def]
          rw [Nat.floor_lt hpos1]
          push_cast
          linarith
        omega
      · have hfl : k + 1 ≤ f2 := by
          rw [hf2def]
          rw [Nat.le_floor_iff hpos2]
          push_cast
          linarith
        omega
    · rintro ⟨hf1k, hkf2⟩
      have hf2T : f2 ≤ neg_table_size := by
        have hle : (neg_table_size:ℝ) * c2 ≤ ((neg_table_size : ℕ) : ℝ) := by
          nlinarith
        have := Nat.floor_mono hle
        rw [Nat.floor_natCast] at this
        rw [hf2def]
        exact this
      have hkT : k < neg_table_size := by omega
      refine ⟨hkT, (hiff k hkT).mpr ⟨?_, ?_⟩⟩
      · have hb2 := Nat.lt_floor_add_one ((neg_table_size:ℝ)*c1)
        rw [lt_div_iff hT]
        have : ((f1:ℕ) : ℝ) ≤ (k : ℝ) := by exact_mod_cast hf1k
        rw [← hf1def] at hb2
        linarith
      · have hb3 := Nat.floor_le hpos2
        rw [div_le_iff hT]
        have : ((k:ℕ) : ℝ) + 1 ≤ ((f2:ℕ) : ℝ) := by exact_mod_cast hkf2
        rw [← hf2def] at hb3
        linarith
  rw [hset, Nat.card_Ico]
  have hf12 : f1 ≤ f2 := by
    rw [hf1def, hf2def]
    exact Nat.floor_mono (by nlinarith)
  rw [Nat.cast_sub hf12, hshare_eq]
  have hb1 : ((f1:ℕ) : ℝ) ≤ (neg_table_size:ℝ) * c1 := Nat.floor_le hpos1
  have hb2 : (neg_table_size:ℝ) * c1 < ((f1:ℕ) : ℝ) + 1 := by
    have := Nat.lt_floor_add_one ((neg_table_size:ℝ)*c1)
    rw [← hf1def] at this
    exact_mod_cast this
  have hb3 : ((f2:ℕ) : ℝ) ≤ (neg_table_size:ℝ) * c2 := Nat.floor_le hpos2
  have hb4 : (neg_table_size:ℝ) * c2 < ((f2:ℕ) : ℝ) + 1 := by
    have := Nat.lt_floor_add_one ((neg_table_size:ℝ)*c2)
    rw [← hf2def] at this
    exact_mod_cast this
  have hrw : ((f2:ℕ) : ℝ)/(neg_table_size:ℝ) - ((f1:ℕ) : ℝ)/(neg_table_size:ℝ) -
      (c2 - c1) =
      (((f2:ℕ) : ℝ) - ((f1:ℕ) : ℝ) - (neg_table_size:ℝ)*(c2-c1)) /
        (neg_table_size:ℝ) := by
    field_simp
  rw [sub_div, hrw, abs_div, abs_of_pos hT]
  rw [div_le_div_iff₀ hT hT]
  have habs : |((f2:ℕ) : ℝ) - ((f1:ℕ) : ℝ) - (neg_table_size:ℝ)*(c2-c1)| ≤ 2 := by
    rw [abs_le]
    constructor
    · nlinarith
    · nlinarith
  nlinarith [abs_nonneg (((f2:ℕ) : ℝ) - ((f1:ℕ) : ℝ) - (neg_table_size:ℝ)*(c2-c1))]

/-- Helper: `1^0.75 = 1`. -/
theorem negPow_one : negPow 1 = 1 := by
  rw [negPow]
  exact Real.one_rpow _

/-- Helper: `(b^4)^0.75 = b^3` for nonnegative `b`. -/
theorem negPow_pow_four (b : ℝ) (hb : 0 ≤ b) :
    negPow (b ^ (4:ℕ)) = b ^ (3:ℕ) := by
  rw [negPow, NEG_SAMPLING_POWER]
  rw [← Real.rpow_natCast b 4, ← Real.rpow_mul hb]
  rw [show ((4:ℕ):ℝ) * (0.75:ℝ) = ((3:ℕ):ℝ) by norm_num]
  rw [Real.rpow_natCast]

/-- C3 (amended): for nonnegative degrees with positive `degree^0.75` mass,
every slot of the negative table holds a valid vertex id; and provided every
vertex's normalized share is at least one slot width `1/tableSize`, slot `k`
holds the vertex whose cumulative share first reaches `(k+1)/tableSize`, and
the fraction of slots per vertex is within `2/tableSize` of its share. -/
theorem neg_table_characterization (degree : List ℝ)
    (hd : ∀ x ∈ degree, 0 ≤ x) (hs : 0 < (degree.map negPow).sum) :
    (∀ k, k < neg_table_size → InitNegTable degree k < degree.length) ∧
    ((∀ v, v < degree.length → 1 / (neg_table_size : ℝ) ≤ negShare degree v) →
      (∀ k, k < neg_table_size →
        InitNegTable degree k = firstReachesVertex degree k) ∧
      (∀ v, v < degree.length →
        |((Finset.filter (fun k => InitNegTable degree k = v)
            (Finset.range neg_table_size)).card : ℝ) / (neg_table_size : ℝ) -
          negShare degree v| ≤ 2 / (neg_table_size : ℝ))) :=
  ⟨InitNegTable_valid degree hd hs,
    fun hH => ⟨InitNegTable_eq_firstReaches degree hd hs hH,
      InitNegTable_tolerance degree hd hs hH⟩⟩

/-- Witness for C3 at degrees `[1, 1]` (each share `1/2 ≥ 1/tableSize`). -/
theorem neg_table_characterization_witness :
    (∀ x ∈ [(1:ℝ), 1], 0 ≤ x) ∧ (0 < ([(1:ℝ), 1].map negPow).sum) ∧
    (∀ v, v < [(1:ℝ), 1].length →
      1 / (neg_table_size : ℝ) ≤ negShare [(1:ℝ), 1] v) ∧
    ((∀ k, k < neg_table_size →
      InitNegTable [(1:ℝ), 1] k < [(1:ℝ), 1].length) ∧
    ((∀ k, k < neg_table_size →
        InitNegTable [(1:ℝ), 1] k = firstReachesVertex [(1:ℝ), 1] k) ∧
      (∀ v, v < [(1:ℝ), 1].length →
        |((Finset.filter (fun k => InitNegTable [(1:ℝ), 1] k = v)
            (Finset.range neg_table_size)).card : ℝ) / (neg_table_size : ℝ) -
          negShare [(1:ℝ), 1] v| ≤ 2 / (neg_table_size : ℝ)))) := by
  have hd : ∀ x ∈ [(1:ℝ), 1], 0 ≤ x := by norm_num
  have hs : (0:ℝ) < ([(1:ℝ), 1].map negPow).sum := by
    simp [negPow_one]
  have hH : ∀ v, v < [(1:ℝ), 1].length →
      1 / (neg_table_size : ℝ) ≤ negShare [(1:ℝ), 1] v := by
    intro v hv
    simp only [List.length_cons, List.length_nil] at hv
    interval_cases v <;>
      simp [negShare, negPow_one, neg_table_size] <;> norm_num
  exact ⟨hd, hs, hH,
    (neg_table_characterization [(1:ℝ), 1] hd hs).1,
    (neg_table_characterization [(1:ℝ), 1] hd hs).2 hH⟩

/-- Helper: slot 0 of the table for degrees `[1, 10^12]`. -/
theorem initNegTable_lag_slot0 : InitNegTable [(1:ℝ), 10^12] 0 = 0 := by
  have hcond : (((0:ℕ) : ℝ) + 1) / (neg_table_size : ℝ) >
      (negState [(1:ℝ), 10^12] 0).2 / (([(1:ℝ), 10^12].map negPow).sum) := by
    have h02 : (negState [(1:ℝ), 10^12] 0).2 = 0 := rfl
    rw [h02, zero_div, gt_iff_lt, neg_table_size]
    positivity
  have hstep : negState [(1:ℝ), 10^12] (0 + 1) =
      ((negState [(1:ℝ), 10^12] 0).1 + 1,
        (negState [(1:ℝ), 10^12] 0).2 +
          negPow ([(1:ℝ), 10^12].getD (negState [(1:ℝ), 10^12] 0).1 0)) := by
    conv_lhs => rw [negState]
    rw [if_pos hcond]
  rw [InitNegTable, hstep]
  rfl

/-- Helper: the mass of the huge vertex in `[1, 10^12]`. -/
theorem negPow_ten_twelve : negPow ((10:ℝ)^12) = 10^9 := by
  have h1 : ((10:ℝ)^12) = (1000:ℝ)^(4:ℕ) := by norm_num
  rw [h1, negPow_pow_four 1000 (by norm_num)]
  norm_num

/-- Helper: the claim's strict "first exceeds" vertex for slot 0 of
`[1, 10^12]` is vertex 1, not the vertex 0 the code stores. -/
theorem firstExceeds_lag_slot0 : firstExceedsVertex [(1:ℝ), 10^12] 0 = 1 := by
  have hm : (([(1:ℝ), 10^12].map negPow).sum) = 1 + 10^9 := by
    simp [negPow_one, negPow_ten_twelve]
  have hc1 : cumShare [(1:ℝ), 10^12] 1 = 1 / (1 + 10^9) := by
    rw [cumShare, hm, cumNeg]
    simp [negPow_one]
  have hc2 : cumShare [(1:ℝ), 10^12] 2 = 1 := by
    rw [cumShare, hm, cumNeg]
    simp [negPow_one, negPow_ten_twelve]
    norm_num
  rw [firstExceedsVertex]
  set S : Set ℕ := {i : ℕ | (((0:ℕ) : ℝ) + 1) / (neg_table_size : ℝ) <
      cumShare [(1:ℝ), 10^12] (i + 1)} with hS
  have hmem1 : 1 ∈ S := by
    show (((0:ℕ) : ℝ) + 1) / (neg_table_size : ℝ) < cumShare [(1:ℝ), 10^12] 2
    rw [hc2, neg_table_size]
    norm_num
  have hnot0 : 0 ∉ S := by
    show ¬ (((0:ℕ) : ℝ) + 1) / (neg_table_size : ℝ) < cumShare [(1:ℝ), 10^12] (0 + 1)
    rw [show (0:ℕ) + 1 = 1 from rfl, hc1, neg_table_size]
    push_cast
    rw [not_lt, div_le_div_iff₀ (by norm_num) (by norm_num)]
    norm_num
  have h1 := Nat.sInf_le hmem1
  have h2 := Nat.sInf_mem (⟨1, hmem1⟩ : S.Nonempty)
  rcases Nat.eq_zero_or_pos (sInf S) with h0 | hpos
  · rw [h0] at h2
    exact absurd h2 hnot0
  · omega

/-- Helper: each share of `[1, 1]` is at least one slot width. -/
theorem tie_share_hyp : ∀ v, v < [(1:ℝ), 1].length →
    1 / (neg_table_size : ℝ) ≤ negShare [(1:ℝ), 1] v := by
  intro v hv
  simp only [List.length_cons, List.length_nil] at hv
  interval_cases v <;>
    simp [negShare, negPow_one, neg_table_size] <;> norm_num

/-- Helper: the cumulative share of the first vertex of `[1, 1]`. -/
theorem tie_cumShare_one : cumShare [(1:ℝ), 1] 1 = 1/2 := by
  rw [cumShare, cumNeg]
  simp [negPow_one]
  norm_num

/-- Helper: at the exact-tie slot `k = 5*10^7 - 1` (threshold `1/2`), the
code stores vertex 0 for degrees `[1, 1]`. -/
theorem initNegTable_tie_slot : InitNegTable [(1:ℝ), 1] (5 * 10^7 - 1) = 0 := by
  have hd : ∀ x ∈ [(1:ℝ), 1], 0 ≤ x := by norm_num
  have hs : (0:ℝ) < ([(1:ℝ), 1].map negPow).sum := by simp [negPow_one]
  rw [InitNegTable_eq_firstReaches [(1:ℝ), 1] hd hs tie_share_hyp _
    (by rw [neg_table_size]; norm_num)]
  rw [firstReachesVertex]
  have hmem0 : 0 ∈ {i : ℕ | (((5 * 10^7 - 1 : ℕ) : ℝ) + 1) / (neg_table_size : ℝ) ≤
      cumShare [(1:ℝ), 1] (i + 1)} := by
    show (((5 * 10^7 - 1 : ℕ) : ℝ) + 1) / (neg_table_size : ℝ) ≤
      cumShare [(1:ℝ), 1] (0 + 1)
    rw [show (0:ℕ) + 1 = 1 from rfl, tie_cumShare_one, neg_table_size]
    norm_num
  have h1 := Nat.sInf_le hmem0
  omega

/-- Helper: the claim's strict "first exceeds" vertex at the tie slot is
vertex 1, not the vertex 0 the code stores. -/
theorem firstExceeds_tie_slot :
    firstExceedsVertex [(1:ℝ), 1] (5 * 10^7 - 1) = 1 := by
  have hc2 : cumShare [(1:ℝ), 1] 2 = 1 := by
    rw [cumShare, cumNeg]
    simp [negPow_one]
  rw [firstExceedsVertex]
  set S : Set ℕ := {i : ℕ | (((5 * 10^7 - 1 : ℕ) : ℝ) + 1) / (neg_table_size : ℝ) <
      cumShare [(1:ℝ), 1] (i + 1)} with hS
  have hmem1 : 1 ∈ S := by
    show (((5 * 10^7 - 1 : ℕ) : ℝ) + 1) / (neg_table_size : ℝ) <
      cumShare [(1:ℝ), 1] 2
    rw [hc2, neg_table_size]
    norm_num
  have hnot0 : 0 ∉ S := by
    show ¬ (((5 * 10^7 - 1 : ℕ) : ℝ) + 1) / (neg_table_size : ℝ) <
      cumShare [(1:ℝ), 1] (0 + 1)
    rw [show (0:ℕ) + 1 = 1 from rfl, tie_cumShare_one, neg_table_size]
    norm_num
  have h1 := Nat.sInf_le hmem1
  have h2 := Nat.sInf_mem (⟨1, hmem1⟩ : S.Nonempty)
  rcases Nat.eq_zero_or_pos (sInf S) with h0 | hpos
  · rw [h0] at h2
    exact absurd h2 hnot0
  · omega

/-- C3 counterexample: the claim's per-slot characterization "the vertex
whose cumulative normalized share first exceeds (k+1)/tableSize" fails on
the code in two ways.  For degrees `[1, 10^12]` (vertex 0's share is below
one slot width) slot 0 stores vertex 0 while the claim's formula gives
vertex 1.  For degrees `[1, 1]` (shares 1/2, well above a slot width, so no
hypothesis can rescue strictness) the slot whose threshold is exactly `1/2`
stores vertex 0 while the strict "first exceeds" formula gives vertex 1. -/
theorem neg_table_claim_counterexample :
    (InitNegTable [(1:ℝ), 10^12] 0 = 0 ∧
      firstExceedsVertex [(1:ℝ), 10^12] 0 = 1) ∧
    (InitNegTable [(1:ℝ), 1] (5 * 10^7 - 1) = 0 ∧
      firstExceedsVertex [(1:ℝ), 1] (5 * 10^7 - 1) = 1 ∧
      (∀ v, v < [(1:ℝ), 1].length →
        1 / (neg_table_size : ℝ) ≤ negShare [(1:ℝ), 1] v)) :=
  ⟨⟨initNegTable_lag_slot0, firstExceeds_lag_slot0⟩,
    ⟨initNegTable_tie_slot, firstExceeds_tie_slot, tie_share_hyp⟩⟩

/-- Helper: distinct rows of a flat `row * dim + c` layout never share a
cell. -/
theorem row_cell_inj (dim : ℕ) (u t c1 c2 : ℕ) (h1 : c1 < dim)
    (h2 : c2 < dim) (heq : u * dim + c1 = t * dim + c2) : u = t := by
  rcases Nat.lt_trichotomy u t with h | h | h
  · exfalso
    have : (u + 1) * dim ≤ t * dim := Nat.mul_le_mul_right dim (by omega)
    rw [Nat.add_mul, one_mul] at this
    omega
  · exact h
  · exfalso
    have : (t + 1) * dim ≤ u * dim := Nat.mul_le_mul_right dim (by omega)
    rw [Nat.add_mul, one_mul] at this
    omega

/-- Helper: when the read row and the written row are disjoint, the
sequential loop of line 249 is the pointwise update by `g * vec_u`. -/
theorem updateVLoop_spec (g : ℝ) (pu pv : Bool × ℕ) (dim : ℕ)
    (mem : (Bool × ℕ) → ℝ)
    (hdisj : ∀ c1 c2, c1 < dim → c2 < dim →
      (pu.1, pu.2 + c1) ≠ (pv.1, pv.2 + c2)) :
    ∀ n, n ≤ dim →
      updateVLoop g pu pv n mem = fun p =>
        if p.1 = pv.1 ∧ pv.2 ≤ p.2 ∧ p.2 < pv.2 + n
        then mem p + g * mem (pu.1, pu.2 + (p.2 - pv.2)) else mem p := by
  intro n
  induction n with
  | zero =>
    intro _
    funext p
    rw [updateVLoop, if_neg (by rintro ⟨h1, h2, h3⟩; omega)]
  | succ n ih =>
    intro hn
    have hv : ¬(pv.1 = pv.1 ∧ pv.2 ≤ pv.2 + n ∧ pv.2 + n < pv.2 + n) := by
      rintro ⟨-, -, h⟩; omega
    have hu : ¬(pu.1 = pv.1 ∧ pv.2 ≤ pu.2 + n ∧ pu.2 + n < pv.2 + n) := by
      rintro ⟨h1, h2, h3⟩
      exact hdisj n (pu.2 + n - pv.2) (by omega) (by omega)
        (by rw [Prod.mk.injEq]; exact ⟨h1, by omega⟩)
    conv_lhs => rw [updateVLoop]
    rw [ih (by omega)]
    funext p
    by_cases hp : p = (pv.1, pv.2 + n)
    · subst hp
      rw [Function.update_same]
      try dsimp only
      rw [if_neg hv, if_neg hu, if_pos ⟨rfl, by omega, by omega⟩,
        Nat.add_sub_cancel_left]
    · rw [Function.update_noteq hp]
      try dsimp only
      by_cases hc : p.1 = pv.1 ∧ pv.2 ≤ p.2 ∧ p.2 < pv.2 + n
      · rw [if_pos hc, if_pos ⟨hc.1, hc.2.1, by omega⟩]
      · rw [if_neg hc, if_neg (by
          rintro ⟨h1, h2, h3⟩
          apply hc
          refine ⟨h1, h2, ?_⟩
          rcases Nat.lt_or_ge p.2 (pv.2 + n) with h | h
          · exact h
          · exfalso
            apply hp
            rw [Prod.ext_iff]
            exact ⟨h1, by omega⟩)]

/-- Helper: the final source-row update loop of line 298 is the pointwise
increment by the error buffer. -/
theorem applyErrLoop_spec (lu : ℕ) (err : ℕ → ℝ) (mem : (Bool × ℕ) → ℝ) :
    ∀ n, applyErrLoop lu err n mem = fun p =>
      if p.1 = false ∧ lu ≤ p.2 ∧ p.2 < lu + n
      then mem p + err (p.2 - lu) else mem p := by
  intro n
  induction n with
  | zero =>
    funext p
    rw [applyErrLoop, if_neg (by rintro ⟨h1, h2, h3⟩; omega)]
  | succ n ih =>
    have hv : ¬((false : Bool) = false ∧ lu ≤ lu + n ∧ lu + n < lu + n) := by
      rintro ⟨-, -, h⟩; omega
    conv_lhs => rw [applyErrLoop]
    rw [ih]
    funext p
    by_cases hp : p = ((false : Bool), lu + n)
    · subst hp
      rw [Function.update_same]
      try dsimp only
      rw [if_neg hv, if_pos ⟨rfl, by omega, by omega⟩, Nat.add_sub_cancel_left]
    · rw [Function.update_noteq hp]
      try dsimp only
      by_cases hc : p.1 = false ∧ lu ≤ p.2 ∧ p.2 < lu + n
      · rw [if_pos hc, if_pos ⟨hc.1, hc.2.1, by omega⟩]
      · rw [if_neg hc, if_neg (by
          rintro ⟨h1, h2, h3⟩
          apply hc
          refine ⟨h1, h2, ?_⟩
          rcases Nat.lt_or_ge p.2 (lu + n) with h | h
          · exact h
          · exfalso
            apply hp
            rw [Prod.ext_iff]
            exact ⟨h1, by omega⟩)]

/-- Helper: one `Update` call with source row `u` and a target row disjoint
from it behaves as the spec's per-pair step: a functional target-row update
by `g * src` and error accumulation of `g * targetVec` (pre-write), with
`x` and `g` computed against the frozen source row. -/
theorem Update_spec (dim : ℕ) (rho junk : ℝ) (mem : (Bool × ℕ) → ℝ)
    (u t : ℕ) (arr : Bool) (label : ℕ) (err : ℕ → ℝ) (srcRow : ℕ → ℝ)
    (hrow : ∀ c, c < dim → mem (false, u * dim + c) = srcRow c)
    (hd : arr = false → t ≠ u) :
    Update dim rho junk mem (false, u * dim) (arr, t * dim) err label =
      (fun p : Bool × ℕ =>
        if p.1 = arr ∧ t * dim ≤ p.2 ∧ p.2 < t * dim + dim
        then mem p + (((label : ℝ) - FastSigmoid junk
            (∑ c ∈ Finset.range dim, srcRow c * mem (arr, t * dim + c))) * rho)
          * srcRow (p.2 - t * dim)
        else mem p,
       fun c => if c < dim
        then err c + (((label : ℝ) - FastSigmoid junk
            (∑ c ∈ Finset.range dim, srcRow c * mem (arr, t * dim + c))) * rho)
          * mem (arr, t * dim + c)
        else err c) := by
  have hdisj : ∀ c1 c2, c1 < dim → c2 < dim →
      ((false : Bool), u * dim + c1) ≠ (arr, t * dim + c2) := by
    intro c1 c2 h1 h2 heq
    rw [Prod.mk.injEq] at heq
    exact hd heq.1.symm (row_cell_inj dim u t c1 c2 h1 h2 heq.2).symm
  have hx : (∑ c ∈ Finset.range dim,
        mem (false, u * dim + c) * mem (arr, t * dim + c))
      = ∑ c ∈ Finset.range dim, srcRow c * mem (arr, t * dim + c) :=
    Finset.sum_congr rfl (fun c hc => by rw [hrow c (Finset.mem_range.mp hc)])
  unfold Update
  dsimp only
  rw [hx, updateVLoop_spec _ _ _ dim mem hdisj dim le_rfl, Prod.mk.injEq]
  refine ⟨?_, rfl⟩
  funext p
  by_cases hc : p.1 = arr ∧ t * dim ≤ p.2 ∧ p.2 < t * dim + dim
  · rw [if_pos hc, if_pos hc, hrow (p.2 - t * dim) (by omega)]
  · rw [if_neg hc, if_neg hc]

/-- Helper: under `order ∈ {1, 2}`, with the source row equal to the frozen
`srcRow` and (for order 1) every target distinct from `u`, the d-loop of
lines 282-297 coincides with the spec's frozen-source pair loop, and the
source row is untouched throughout. -/
theorem trainPairsLoop_refines (dim : ℕ) (order : ℤ)
    (horder : order = 1 ∨ order = 2) (rho junk : ℝ) (u : ℕ)
    (srcRow : ℕ → ℝ) :
    ∀ (pairs : List (ℕ × ℕ)) (mem : (Bool × ℕ) → ℝ) (err : ℕ → ℝ),
      (∀ c, c < dim → mem (false, u * dim + c) = srcRow c) →
      (order = 1 → ∀ tl ∈ pairs, (tl : ℕ × ℕ).1 ≠ u) →
      trainPairsLoop dim order rho junk (u * dim) pairs mem err =
        specPairsLoop dim rho junk srcRow
          (if order = 2 then true else false) pairs mem err ∧
      ∀ c, c < dim →
        (trainPairsLoop dim order rho junk (u * dim) pairs mem err).1
          (false, u * dim + c) = srcRow c := by
  intro pairs
  induction pairs with
  | nil =>
    intro mem err hrow _
    exact ⟨rfl, hrow⟩
  | cons pr rest ih =>
    intro mem err hrow htgt
    obtain ⟨target, label⟩ := pr
    have htgt' : order = 1 → ∀ tl ∈ rest, (tl : ℕ × ℕ).1 ≠ u :=
      fun h tl htl => htgt h tl (List.mem_cons_of_mem _ htl)
    rcases horder with ho | ho
    · subst ho
      have htA : (if (1 : ℤ) = 2 then true else false) = false := by decide
      have htu : target ≠ u :=
        htgt rfl (target, label) (List.mem_cons_self _ _)
      have hU := Update_spec dim rho junk mem u target false label err srcRow
        hrow (fun _ => htu)
      have hstep : trainPairsLoop dim 1 rho junk (u * dim)
          ((target, label) :: rest) mem err =
          trainPairsLoop dim 1 rho junk (u * dim) rest
            (Update dim rho junk mem (false, u * dim)
              (false, target * dim) err label).1
            (Update dim rho junk mem (false, u * dim)
              (false, target * dim) err label).2 := by
        conv_lhs => rw [trainPairsLoop]
        rw [if_neg (show ¬((1 : ℤ) = 2) by decide), if_pos rfl]
      have hstep2 : specPairsLoop dim rho junk srcRow false
          ((target, label) :: rest) mem err =
          specPairsLoop dim rho junk srcRow false rest
            (Update dim rho junk mem (false, u * dim)
              (false, target * dim) err label).1
            (Update dim rho junk mem (false, u * dim)
              (false, target * dim) err label).2 := by
        conv_lhs => rw [specPairsLoop]
        rw [hU]
      have hrow' : ∀ c, c < dim →
          (Update dim rho junk mem (false, u * dim)
            (false, target * dim) err label).1 (false, u * dim + c)
            = srcRow c := by
        intro c hc
        rw [hU]
        try dsimp only
        rw [if_neg (by
          rintro ⟨-, h2, h3⟩
          exact htu (row_cell_inj dim u target c (u * dim + c - target * dim)
            hc (by omega) (by omega)).symm)]
        exact hrow c hc
      obtain ⟨ihEq, ihRow⟩ := ih _ _ hrow' htgt'
      rw [htA] at ihEq
      refine ⟨?_, ?_⟩
      · rw [htA, hstep, ihEq]
        exact hstep2.symm
      · intro c hc
        rw [hstep]
        exact ihRow c hc
    · subst ho
      have htA : (if (2 : ℤ) = 2 then true else false) = true := by decide
      have hU := Update_spec dim rho junk mem u target true label err srcRow
        hrow (fun h => absurd h (by decide))
      have hstep : trainPairsLoop dim 2 rho junk (u * dim)
          ((target, label) :: rest) mem err =
          trainPairsLoop dim 2 rho junk (u * dim) rest
            (Update dim rho junk mem (false, u * dim)
              (true, target * dim) err label).1
            (Update dim rho junk mem (false, u * dim)
              (true, target * dim) err label).2 := by
        conv_lhs => rw [trainPairsLoop]
        rw [if_neg (show ¬((2 : ℤ) = 1) by decide), if_pos rfl]
      have hstep2 : specPairsLoop dim rho junk srcRow true
          ((target, label) :: rest) mem err =
          specPairsLoop dim rho junk srcRow true rest
            (Update dim rho junk mem (false, u * dim)
              (true, target * dim) err label).1
            (Update dim rho junk mem (false, u * dim)
              (true, target * dim) err label).2 := by
        conv_lhs => rw [specPairsLoop]
        rw [hU]
      have hrow' : ∀ c, c < dim →
          (Update dim rho junk mem (false, u * dim)
            (true, target * dim) err label).1 (false, u * dim + c)
            = srcRow c := by
        intro c hc
        rw [hU]
        try dsimp only
        rw [if_neg (by rintro ⟨h1, -⟩; exact absurd h1 (by decide))]
        exact hrow c hc
      obtain ⟨ihEq, ihRow⟩ := ih _ _ hrow' htgt'
      rw [htA] at ihEq
      refine ⟨?_, ?_⟩
      · rw [htA, hstep, ihEq]
        exact hstep2.symm
      · intro c hc
        rw [hstep]
        exact ihRow c hc

/-- C2: one training step for a sampled edge `(u, v)` processes exactly
`numNegative + 1` `(target, label)` pairs; during the pair loop the source
row `vertexEmb[u]` is never modified (given that under order 1 no target
equals `u`); and the whole step equals the spec's description: for each
pair compute `x = src · targetVec` and `g = (label - Eval x) * rho`,
accumulate `g * targetVec` (the pre-write value) into the thread-local
error buffer and immediately update the target row in place by `g * src`,
and only after all pairs increment `vertexEmb[u]` once by the accumulated
error. -/
theorem train_step_structure (dim : ℕ) (order : ℤ)
    (horder : order = 1 ∨ order = 2) (rho junk : ℝ) (u v numNeg : ℕ)
    (negTarget : ℕ → ℕ) (mem : (Bool × ℕ) → ℝ)
    (htargets : order = 1 → ∀ tl ∈ trainPairs v numNeg negTarget,
      (tl : ℕ × ℕ).1 ≠ u) :
    (trainPairs v numNeg negTarget).length = numNeg + 1 ∧
    (∀ i c, c < dim →
      (trainPairsLoop dim order rho junk (u * dim)
        ((trainPairs v numNeg negTarget).take i) mem (fun _ => 0)).1
        (false, u * dim + c) = mem (false, u * dim + c)) ∧
    trainEdgeStep dim order rho junk u v numNeg negTarget mem =
      specTrainStep dim rho junk u (if order = 2 then true else false)
        (trainPairs v numNeg negTarget) mem := by
  refine ⟨by simp [trainPairs], ?_, ?_⟩
  · intro i c hc
    exact (trainPairsLoop_refines dim order horder rho junk u
      (fun c => mem (false, u * dim + c))
      ((trainPairs v numNeg negTarget).take i) mem (fun _ => 0)
      (fun _ _ => rfl)
      (fun h tl htl => htargets h tl (List.mem_of_mem_take htl))).2 c hc
  · obtain ⟨hEq, -⟩ := trainPairsLoop_refines dim order horder rho junk u
      (fun c => mem (false, u * dim + c)) (trainPairs v numNeg negTarget)
      mem (fun _ => 0) (fun _ _ => rfl) htargets
    unfold trainEdgeStep specTrainStep
    try dsimp only
    rw [hEq, applyErrLoop_spec]

/-- Witness for C2 at `dim = 2`, `order = 2`, `u = 0`, `v = 1`,
`numNeg = 1`, all-ones negative targets, zero memory. -/
theorem train_step_structure_witness :
    (trainPairs 1 1 (fun _ => 1)).length = 1 + 1 ∧
    (∀ i c, c < 2 →
      (trainPairsLoop 2 2 1 0 (0 * 2) ((trainPairs 1 1 (fun _ => 1)).take i)
        (fun _ => (0 : ℝ)) (fun _ => 0)).1 (false, 0 * 2 + c) = 0) ∧
    trainEdgeStep 2 2 1 0 0 1 1 (fun _ => 1) (fun _ => (0 : ℝ)) =
      specTrainStep 2 1 0 0 (if (2 : ℤ) = 2 then true else false)
        (trainPairs 1 1 (fun _ => 1)) (fun _ => (0 : ℝ)) :=
  train_step_structure 2 2 (Or.inr rfl) 1 0 0 1 1 (fun _ => 1)
    (fun _ => (0 : ℝ)) (fun h => absurd h (by decide))

/-- Helper: at `x = 6` the lookup index is 1000, the slot the init loop never
wrote, so `FastSigmoid` returns the junk content of that slot. -/
theorem FastSigmoid_at_six (junk : ℝ) : FastSigmoid junk 6 = junk := by
  unfold FastSigmoid sigmoid_table sigmoid_table_size
  norm_num

/-- C4 (code bug, failing input x = 6): `InitSigmoidTable` allocates
`sigmoid_table_size + 1` slots but fills only slots `0..999`; `FastSigmoid 6`
indexes slot 1000 and returns uninitialized memory.  If that junk value is 0
(one legitimate content), the result differs from `sigmoid 6` by more than
the bucket width `2*6/1000`, contradicting the claimed tolerance. -/
theorem FastSigmoid_reads_uninitialized_at_six :
    FastSigmoid 0 6 = 0 ∧ 12 / 1000 < |sigmoid 6 - FastSigmoid 0 6| := by
  refine ⟨FastSigmoid_at_six 0, ?_⟩
  rw [FastSigmoid_at_six 0]
  have h1 : Real.exp (-6) < 1 := Real.exp_lt_one_iff.mpr (by norm_num)
  have h2 : (0:ℝ) < 1 + Real.exp (-6) := by positivity
  have h3 : (1:ℝ)/2 < 1 / (1 + Real.exp (-6)) := by
    apply one_div_lt_one_div_of_lt h2
    linarith
  have h4 : (0:ℝ) ≤ sigmoid 6 := by
    unfold sigmoid
    positivity
  rw [sub_zero, abs_of_nonneg h4]
  unfold sigmoid
  linarith

/-- C9 (code bug, failing input x = 6): `FastSigmoid 6` returns the
uninitialized slot 1000.  If that junk value is 2 (one legitimate content),
monotonicity fails against `FastSigmoid 10 = 1`. -/
theorem FastSigmoid_monotonicity_fails_at_six :
    (6:ℝ) ≤ 10 ∧ ¬ FastSigmoid 2 6 ≤ FastSigmoid 2 10 := by
  have h10 : FastSigmoid 2 10 = 1 := by
    unfold FastSigmoid
    norm_num
  refine ⟨by norm_num, ?_⟩
  rw [FastSigmoid_at_six 2, h10]
  norm_num

/-- Helper: the recomputation of lines 270-271 is exactly a `max`. -/
theorem recomputeRho_eq_max (init_rho : ℚ) (total csc : ℕ) :
    recomputeRho init_rho total csc =
      max (init_rho * 0.0001) (init_rho * (1 - (csc : ℚ) / ((total : ℚ) + 1))) := by
  unfold recomputeRho
  dsimp only
  split
  · exact (max_eq_left (by linarith)).symm
  · exact (max_eq_right (by linarith)).symm

/-- Helper: a worker step never drops `rho` below the floor. -/
theorem TrainLINEThreadStep_rho_floor (init_rho : ℚ) (total : ℕ) (s : WorkerState)
    (h : init_rho * 0.0001 ≤ s.rho) :
    init_rho * 0.0001 ≤ (TrainLINEThreadStep init_rho total s).rho := by
  unfold TrainLINEThreadStep
  split
  · simp only
    rw [recomputeRho_eq_max]
    exact le_max_left _ _
  · exact h

/-- C5: whenever the local counter has advanced past the reporting interval,
the learning rate is recomputed as
`rho = max(initRho * 1e-4, initRho * (1 - progress / (totalSamples + 1)))`,
and along any worker trace `rho` never falls below `initRho * 1e-4`. -/
theorem rho_recompute_is_max_and_never_below_floor (init_rho : ℚ)
    (h : 0 < init_rho) (total : ℕ) :
    (∀ csc : ℕ, recomputeRho init_rho total csc =
      max (init_rho * 0.0001) (init_rho * (1 - (csc : ℚ) / ((total : ℚ) + 1)))) ∧
    (∀ n : ℕ, init_rho * 0.0001 ≤
      ((TrainLINEThreadStep init_rho total)^[n] (initialWorkerState init_rho)).rho) := by
  refine ⟨fun csc => recomputeRho_eq_max init_rho total csc, fun n => ?_⟩
  induction n with
  | zero =>
    simp only [Function.iterate_zero, id_eq, initialWorkerState]
    nlinarith
  | succ n ih =>
    rw [Function.iterate_succ_apply']
    exact TrainLINEThreadStep_rho_floor init_rho total _ ih

/-- Witness for C5 at `initRho = 1`, `totalSamples = 5`. -/
theorem rho_recompute_witness :
    (0:ℚ) < 1 ∧
    ((∀ csc : ℕ, recomputeRho 1 5 csc =
      max ((1:ℚ) * 0.0001) (1 * (1 - (csc : ℚ) / ((5 : ℚ) + 1)))) ∧
    (∀ n : ℕ, (1:ℚ) * 0.0001 ≤
      ((TrainLINEThreadStep 1 5)^[n] (initialWorkerState 1)).rho)) :=
  ⟨by norm_num, rho_recompute_is_max_and_never_below_floor 1 (by norm_num) 5⟩

/-- Helper: each loop body iteration increments the local counter. -/
theorem TrainLINEThreadStep_count (init_rho : ℚ) (total : ℕ) (s : WorkerState) :
    (TrainLINEThreadStep init_rho total s).count = s.count + 1 := by
  unfold TrainLINEThreadStep
  split <;> rfl

/-- Helper: the loop executes exactly `total/num_threads + 3 - count` body
iterations from any state. -/
theorem TrainLINEThreadLoop_iterations (init_rho : ℚ) (total num_threads : ℕ) :
    ∀ (m : ℕ) (s : WorkerState), total / num_threads + 3 - s.count = m →
      (TrainLINEThreadLoop init_rho total num_threads s).2 = m := by
  intro m
  induction m with
  | zero =>
    intro s hs
    rw [TrainLINEThreadLoop]
    split
    · rfl
    · omega
  | succ m ih =>
    intro s hs
    rw [TrainLINEThreadLoop]
    split
    · omega
    · simp only
      rw [ih (TrainLINEThreadStep init_rho total s)
        (by rw [TrainLINEThreadStep_count]; omega)]

/-- C8: with `numThreads = N ≥ 1` and raw budget `p` (multiplied internally
by 1,000,000 at line 394), each worker's loop terminates after exactly
`T / N + 3` full body iterations, `T = p * 1000000`; in particular at most
`T / N + 3`. -/
theorem worker_loop_iteration_bound (p N : ℕ) (init_rho : ℚ) (hN : 1 ≤ N) :
    (TrainLINEThreadLoop init_rho (p * 1000000) N (initialWorkerState init_rho)).2
      = p * 1000000 / N + 3 ∧
    (TrainLINEThreadLoop init_rho (p * 1000000) N (initialWorkerState init_rho)).2
      ≤ p * 1000000 / N + 3 := by
  have h := TrainLINEThreadLoop_iterations init_rho (p * 1000000) N
    (p * 1000000 / N + 3) (initialWorkerState init_rho) (by simp [initialWorkerState])
  exact ⟨h, le_of_eq h⟩

/-- Witness for C8 at `p = 1`, `N = 2`. -/
theorem worker_loop_iteration_bound_witness :
    1 ≤ 2 ∧
    ((TrainLINEThreadLoop 1 (1 * 1000000) 2 (initialWorkerState 1)).2
      = 1 * 1000000 / 2 + 3 ∧
    (TrainLINEThreadLoop 1 (1 * 1000000) 2 (initialWorkerState 1)).2
      ≤ 1 * 1000000 / 2 + 3) :=
  ⟨by norm_num, worker_loop_iteration_bound 1 2 1 (by norm_num)⟩

/-- C6: if any of the setup allocations the spec lists fails, no worker
thread is spawned and nothing is appended to the output sequences.  The
checked allocations return cleanly through `malloc_exit`; the unchecked
`InitNegTable`/`InitSigmoidTable` allocations die on the immediate
null-pointer store in their fill loops, still before `pthread_create` and
`VectorOutput`. -/
theorem alloc_failure_aborts_before_threads (o : AllocOracle)
    (h : o.edge_source_ok = false ∨ o.edge_target_ok = false ∨
      o.edge_weight_ok = false ∨ o.alias_ok = false ∨ o.prob_ok = false ∨
      o.norm_prob_ok = false ∨ o.large_block_ok = false ∨
      o.small_block_ok = false ∨ o.emb_vertex_ok = false ∨
      o.emb_context_ok = false ∨ o.neg_table_ok = false ∨
      o.sigmoid_table_ok = false) :
    (TrainLINEMainAlloc o).threads_spawned = false ∧
    (TrainLINEMainAlloc o).output_appended = false := by
  constructor <;>
    (simp only [TrainLINEMainAlloc]; repeat' split) <;> try rfl
  all_goals simp_all

/-- Witness for C6: the negative-table allocation fails, all others
succeed. -/
theorem alloc_failure_aborts_before_threads_witness :
    ((AllocOracle.mk true true true true true true true true true true
        false true).edge_source_ok = false ∨
      (AllocOracle.mk true true true true true true true true true true
        false true).edge_target_ok = false ∨
      (AllocOracle.mk true true true true true true true true true true
        false true).edge_weight_ok = false ∨
      (AllocOracle.mk true true true true true true true true true true
        false true).alias_ok = false ∨
      (AllocOracle.mk true true true true true true true true true true
        false true).prob_ok = false ∨
      (AllocOracle.mk true true true true true true true true true true
        false true).norm_prob_ok = false ∨
      (AllocOracle.mk true true true true true true true true true true
        false true).large_block_ok = false ∨
      (AllocOracle.mk true true true true true true true true true true
        false true).small_block_ok = false ∨
      (AllocOracle.mk true true true true true true true true true true
        false true).emb_vertex_ok = false ∨
      (AllocOracle.mk true true true true true true true true true true
        false true).emb_context_ok = false ∨
      (AllocOracle.mk true true true true true true true true true true
        false true).neg_table_ok = false ∨
      (AllocOracle.mk true true true true true true true true true true
        false true).sigmoid_table_ok = false) ∧
    ((TrainLINEMainAlloc (AllocOracle.mk true true true true true true true
        true true true false true)).threads_spawned = false ∧
      (TrainLINEMainAlloc (AllocOracle.mk true true true true true true true
        true true true false true)).output_appended = false) :=
  ⟨by decide, alloc_failure_aborts_before_threads _ (by decide)⟩

theorem hash_table_size_pos : 0 < hash_table_size := by
  norm_num [hash_table_size]

theorem probeSlot_lt (h j : ℕ) : probeSlot h j < hash_table_size :=
  Nat.mod_lt _ hash_table_size_pos

theorem Hash_lt (key : List ℕ) : Hash key < hash_table_size :=
  Nat.mod_lt _ hash_table_size_pos

theorem probeSlot_zero (addr : ℕ) (h : addr < hash_table_size) :
    probeSlot addr 0 = addr := by
  rw [probeSlot, Nat.add_zero]
  exact Nat.mod_eq_of_lt h

/-- Stepping the probe address commutes with the walk offset. -/
theorem probeSlot_step (addr j : ℕ) :
    probeSlot ((addr + 1) % hash_table_size) j = probeSlot addr (j + 1) := by
  rw [probeSlot, probeSlot, Nat.mod_add_mod]
  congr 1
  omega

/-- Distinct walk offsets below the table size reach distinct slots. -/
theorem probeSlot_inj (h i j : ℕ) (hi : i < hash_table_size)
    (hj : j < hash_table_size) (heq : probeSlot h i = probeSlot h j) :
    i = j := by
  rw [probeSlot, probeSlot] at heq
  have hmod : Nat.ModEq hash_table_size i j :=
    Nat.ModEq.add_left_cancel' h heq
  have h2 : i % hash_table_size = j % hash_table_size := hmod
  rwa [Nat.mod_eq_of_lt hi, Nat.mod_eq_of_lt hj] at h2

theorem searchProbe_succ_none (table : ℕ → Option ℕ) (names : List (List ℕ))
    (key : List ℕ) (fuel addr : ℕ) (h : table addr = none) :
    searchProbe table names key (fuel + 1) addr = some none := by
  rw [searchProbe, h]

theorem searchProbe_succ_hit (table : ℕ → Option ℕ) (names : List (List ℕ))
    (key : List ℕ) (fuel addr v : ℕ) (h : table addr = some v)
    (hk : names.getD v [] = key) :
    searchProbe table names key (fuel + 1) addr = some (some v) := by
  rw [searchProbe, h]
  show (if names.getD v [] = key then some (some v)
    else searchProbe table names key fuel ((addr + 1) % hash_table_size))
    = some (some v)
  rw [if_pos hk]

theorem searchProbe_succ_cont (table : ℕ → Option ℕ) (names : List (List ℕ))
    (key : List ℕ) (fuel addr v : ℕ) (h : table addr = some v)
    (hk : names.getD v [] ≠ key) :
    searchProbe table names key (fuel + 1) addr =
      searchProbe table names key fuel ((addr + 1) % hash_table_size) := by
  rw [searchProbe, h]
  show (if names.getD v [] = key then some (some v)
    else searchProbe table names key fuel ((addr + 1) % hash_table_size))
    = searchProbe table names key fuel ((addr + 1) % hash_table_size)
  rw [if_neg hk]

theorem insertProbe_succ_none (table : ℕ → Option ℕ) (value fuel addr : ℕ)
    (h : table addr = none) :
    insertProbe table value (fuel + 1) addr =
      some (Function.update table addr (some value)) := by
  rw [insertProbe, h]

theorem insertProbe_succ_cont (table : ℕ → Option ℕ) (value fuel addr v : ℕ)
    (h : table addr = some v) :
    insertProbe table value (fuel + 1) addr =
      insertProbe table value fuel ((addr + 1) % hash_table_size) := by
  rw [insertProbe, h]

/-- Helper: the search probe reaches a matching entry `steps` slots along,
provided every earlier slot is occupied by a non-matching vertex. -/
theorem searchProbe_reach (table : ℕ → Option ℕ) (names : List (List ℕ))
    (key : List ℕ) :
    ∀ (steps fuel addr v : ℕ), steps < fuel →
      table (probeSlot addr steps) = some v →
      names.getD v [] = key →
      (∀ j, j < steps → ∃ w, table (probeSlot addr j) = some w ∧
        names.getD w [] ≠ key) →
      addr < hash_table_size →
      searchProbe table names key fuel addr = some (some v) := by
  intro steps
  induction steps with
  | zero =>
    intro fuel addr v hf htv hkey _ haddr
    cases fuel with
    | zero => omega
    | succ f =>
      rw [probeSlot_zero addr haddr] at htv
      exact searchProbe_succ_hit table names key f addr v htv hkey
  | succ n ih =>
    intro fuel addr v hf htv hkey hpre haddr
    cases fuel with
    | zero => omega
    | succ f =>
      obtain ⟨w, hw, hwk⟩ := hpre 0 (Nat.succ_pos n)
      rw [probeSlot_zero addr haddr] at hw
      rw [searchProbe_succ_cont table names key f addr w hw hwk]
      refine ih f ((addr + 1) % hash_table_size) v (by omega) ?_ hkey ?_
        (Nat.mod_lt _ hash_table_size_pos)
      · rw [probeSlot_step]
        exact htv
      · intro j hj
        rw [probeSlot_step]
        exact hpre (j + 1) (by omega)

/-- Helper: the search probe reports "absent" at the first empty slot,
provided every earlier slot is occupied by a non-matching vertex. -/
theorem searchProbe_to_empty (table : ℕ → Option ℕ) (names : List (List ℕ))
    (key : List ℕ) :
    ∀ (steps fuel addr : ℕ), steps < fuel →
      table (probeSlot addr steps) = none →
      (∀ j, j < steps → ∃ w, table (probeSlot addr j) = some w ∧
        names.getD w [] ≠ key) →
      addr < hash_table_size →
      searchProbe table names key fuel addr = some none := by
  intro steps
  induction steps with
  | zero =>
    intro fuel addr hf htv _ haddr
    cases fuel with
    | zero => omega
    | succ f =>
      rw [probeSlot_zero addr haddr] at htv
      exact searchProbe_succ_none table names key f addr htv
  | succ n ih =>
    intro fuel addr hf htv hpre haddr
    cases fuel with
    | zero => omega
    | succ f =>
      obtain ⟨w, hw, hwk⟩ := hpre 0 (Nat.succ_pos n)
      rw [probeSlot_zero addr haddr] at hw
      rw [searchProbe_succ_cont table names key f addr w hw hwk]
      refine ih f ((addr + 1) % hash_table_size) (by omega) ?_ ?_
        (Nat.mod_lt _ hash_table_size_pos)
      · rw [probeSlot_step]
        exact htv
      · intro j hj
        rw [probeSlot_step]
        exact hpre (j + 1) (by omega)

/-- Helper: the insert probe writes into the first empty slot of the walk. -/
theorem insertProbe_reach (table : ℕ → Option ℕ) (value : ℕ) :
    ∀ (steps fuel addr : ℕ), steps < fuel →
      table (probeSlot addr steps) = none →
      (∀ j, j < steps → (table (probeSlot addr j)).isSome = true) →
      addr < hash_table_size →
      insertProbe table value fuel addr =
        some (Function.update table (probeSlot addr steps) (some value)) := by
  intro steps
  induction steps with
  | zero =>
    intro fuel addr hf htv _ haddr
    cases fuel with
    | zero => omega
    | succ f =>
      rw [probeSlot_zero addr haddr] at htv ⊢
      exact insertProbe_succ_none table value f addr htv
  | succ n ih =>
    intro fuel addr hf htv hpre haddr
    cases fuel with
    | zero => omega
    | succ f =>
      obtain ⟨w, hw⟩ := Option.isSome_iff_exists.mp (hpre 0 (Nat.succ_pos n))
      rw [probeSlot_zero addr haddr] at hw
      rw [insertProbe_succ_cont table value f addr w hw,
        show probeSlot addr (n + 1) = probeSlot ((addr + 1) % hash_table_size) n
          from (probeSlot_step addr n).symm]
      refine ih f ((addr + 1) % hash_table_size) (by omega) ?_ ?_
        (Nat.mod_lt _ hash_table_size_pos)
      · rw [probeSlot_step]
        exact htv
      · intro j hj
        rw [probeSlot_step]
        exact hpre (j + 1) (by omega)

/-- Helper: every slot of the table is reached by the linear probe within
`hash_table_size` steps from any start. -/
theorem probe_surj (h a : ℕ) (ha : a < hash_table_size) :
    ∃ j, j < hash_table_size ∧ probeSlot h j = a := by
  have hm : h % hash_table_size < hash_table_size :=
    Nat.mod_lt _ hash_table_size_pos
  rcases Nat.lt_or_ge a (h % hash_table_size) with hlt | hge
  · refine ⟨a + hash_table_size - h % hash_table_size, by omega, ?_⟩
    rw [probeSlot, ← Nat.mod_add_mod,
      show h % hash_table_size + (a + hash_table_size - h % hash_table_size)
        = a + hash_table_size from by omega,
      Nat.add_mod_right]
    exact Nat.mod_eq_of_lt ha
  · refine ⟨a - h % hash_table_size, by omega, ?_⟩
    rw [probeSlot, ← Nat.mod_add_mod,
      show h % hash_table_size + (a - h % hash_table_size) = a from by omega]
    exact Nat.mod_eq_of_lt ha

/-- Helper: a table with fewer occupied slots than its size has a first
empty slot along any probe walk. -/
theorem exists_empty_probe (table : ℕ → Option ℕ) (h : ℕ)
    (hcard : ((Finset.range hash_table_size).filter
      (fun a => (table a).isSome = true)).card < hash_table_size) :
    ∃ e, e < hash_table_size ∧ table (probeSlot h e) = none ∧
      ∀ j, j < e → (table (probeSlot h j)).isSome = true := by
  have hex : ∃ j, j < hash_table_size ∧ table (probeSlot h j) = none := by
    by_contra hno
    push_neg at hno
    have hall : ∀ a ∈ Finset.range hash_table_size,
        (table a).isSome = true := by
      intro a ha
      obtain ⟨j, hj, hja⟩ := probe_surj h a (Finset.mem_range.mp ha)
      rw [← hja]
      exact Option.ne_none_iff_isSome.mp (hno j hj)
    rw [Finset.filter_true_of_mem hall, Finset.card_range] at hcard
    exact lt_irrefl _ hcard
  obtain ⟨j0, hj0T, hj0⟩ := hex
  have hP : ∃ j, table (probeSlot h j) = none := ⟨j0, hj0⟩
  refine ⟨Nat.find hP, lt_of_le_of_lt (Nat.find_min' hP hj0) hj0T,
    Nat.find_spec hP, ?_⟩
  intro j hj
  exact Option.ne_none_iff_isSome.mp (Nat.find_min hP hj)

/-- Helper: under the probing invariant, searching for a stored name finds
exactly its vertex id. -/
theorem search_hit (s : GraphState) (hinv : GraphInv s) (key : List ℕ)
    (v : ℕ) (hv : v < s.names.length)
    (hname : s.names.getD v [] = key) :
    SearchHashTable s.table s.names key = some (some v) := by
  obtain ⟨steps, hsT, hslot, hpre⟩ := hinv.chain v hv
  rw [hname] at hslot hpre
  rw [SearchHashTable]
  refine searchProbe_reach s.table s.names key steps hash_table_size
    (Hash key) v hsT hslot hname ?_ (Hash_lt key)
  intro j hj
  obtain ⟨w, hw⟩ := Option.isSome_iff_exists.mp (hpre j hj)
  refine ⟨w, hw, ?_⟩
  have hwlt := hinv.val_lt _ _ hw
  intro hcontra
  have hwv : w = v := by
    have h1 : s.names.getD w [] = s.names.getD v [] := by
      rw [hcontra, hname]
    rw [List.getD_eq_getElem (s.names) ([]) hwlt,
      List.getD_eq_getElem (s.names) ([]) hv] at h1
    exact hinv.nodup.getElem_inj_iff.mp h1
  subst hwv
  have heq := hinv.inj _ _ _ hw hslot
  exact absurd (probeSlot_inj (Hash key) j steps (by omega) hsT heq) (by omega)

/-- Helper: under the probing invariant, searching for an absent name
reports a miss (the first empty slot is reached). -/
theorem search_miss (s : GraphState) (hinv : GraphInv s) (key : List ℕ)
    (hmiss : key ∉ s.names) (hroom : s.names.length < hash_table_size) :
    SearchHashTable s.table s.names key = some none := by
  have hcard : ((Finset.range hash_table_size).filter
      (fun a => (s.table a).isSome = true)).card < hash_table_size := by
    rw [hinv.card]
    exact hroom
  obtain ⟨e, heT, hempty, hocc⟩ := exists_empty_probe s.table (Hash key) hcard
  rw [SearchHashTable]
  refine searchProbe_to_empty s.table s.names key e hash_table_size
    (Hash key) heT hempty ?_ (Hash_lt key)
  intro j hj
  obtain ⟨w, hw⟩ := Option.isSome_iff_exists.mp (hocc j hj)
  refine ⟨w, hw, fun hcontra => hmiss ?_⟩
  rw [← hcontra]
  have hwlt := hinv.val_lt _ _ hw
  rw [List.getD_eq_getElem (s.names) ([]) hwlt]
  exact List.getElem_mem _

/-- Helper: under the probing invariant with a free slot available, the
insert succeeds and writes the first empty slot of the probe walk. -/
theorem InsertHashTable_spec (s : GraphState) (hinv : GraphInv s)
    (name : List ℕ) (value : ℕ)
    (hroom : s.names.length < hash_table_size) :
    ∃ e, e < hash_table_size ∧ s.table (probeSlot (Hash name) e) = none ∧
      (∀ j, j < e → (s.table (probeSlot (Hash name) j)).isSome = true) ∧
      InsertHashTable s.table name value =
        some (Function.update s.table (probeSlot (Hash name) e)
          (some value)) := by
  have hcard : ((Finset.range hash_table_size).filter
      (fun a => (s.table a).isSome = true)).card < hash_table_size := by
    rw [hinv.card]
    exact hroom
  obtain ⟨e, heT, hempty, hocc⟩ := exists_empty_probe s.table (Hash name) hcard
  refine ⟨e, heT, hempty, hocc, ?_⟩
  rw [InsertHashTable]
  exact insertProbe_reach s.table value e hash_table_size (Hash name)
    heT hempty hocc (Hash_lt name)

/-- Helper: adding a fresh, short-enough name appends it with the next
sequential id and preserves the probing invariant. -/
theorem AddVertex_spec (s : GraphState) (name : List ℕ) (hinv : GraphInv s)
    (hlen : name.length ≤ MAX_STRING - 1) (hnew : name ∉ s.names)
    (hroom : s.names.length < hash_table_size) :
    ∃ s', AddVertex s name = some (s', s.names.length) ∧
      s'.names = s.names ++ [name] ∧ GraphInv s' := by
  obtain ⟨e, heT, hempty, hocc, hins⟩ :=
    InsertHashTable_spec s hinv name s.names.length hroom
  have htake : name.take (MAX_STRING - 1) = name :=
    List.take_of_length_le hlen
  set a₀ := probeSlot (Hash name) e with ha₀
  set tb' := Function.update s.table a₀ (some s.names.length) with htb'
  have hmono : ∀ x, (s.table x).isSome = true → (tb' x).isSome = true := by
    intro x hx
    by_cases hx0 : x = a₀
    · subst hx0
      rw [htb', Function.update_same]
      rfl
    · rw [htb', Function.update_noteq hx0]
      exact hx
  refine ⟨⟨tb', s.names ++ [name]⟩, ?_, rfl, ?_⟩
  · rw [AddVertex, hins, htake]
  · constructor
    · -- bound
      dsimp only
      intro a ha
      have hne : a ≠ a₀ := by
        intro hcon
        rw [hcon] at ha
        exact absurd (probeSlot_lt (Hash name) e) (by omega)
      rw [htb', Function.update_noteq hne]
      exact hinv.bound a ha
    · -- val_lt
      dsimp only
      intro a v hv
      rw [List.length_append, List.length_singleton]
      by_cases ha0 : a = a₀
      · subst ha0
        rw [htb', Function.update_same] at hv
        injection hv with hv'
        omega
      · rw [htb', Function.update_noteq ha0] at hv
        have := hinv.val_lt a v hv
        omega
    · -- inj
      dsimp only
      intro a b v ha hb
      by_cases ha0 : a = a₀ <;> by_cases hb0 : b = a₀
      · rw [ha0, hb0]
      · exfalso
        rw [ha0, htb', Function.update_same] at ha
        rw [htb', Function.update_noteq hb0] at hb
        have hvb := hinv.val_lt b v hb
        have hva : s.names.length = v := by
          have := ha
          injection this
        omega
      · exfalso
        rw [hb0, htb', Function.update_same] at hb
        rw [htb', Function.update_noteq ha0] at ha
        have hva := hinv.val_lt a v ha
        have hvb : s.names.length = v := by
          have := hb
          injection this
        omega
      · rw [htb', Function.update_noteq ha0] at ha
        rw [htb', Function.update_noteq hb0] at hb
        exact hinv.inj a b v ha hb
    · -- chain
      dsimp only
      intro v hv
      rw [List.length_append, List.length_singleton] at hv
      rcases Nat.lt_succ_iff_lt_or_eq.mp hv with hlt | heq
      · obtain ⟨steps, hsT, hslot, hpre⟩ := hinv.chain v hlt
        rw [show (s.names ++ [name]).getD v [] = s.names.getD v [] from
          List.getD_append (s.names) ([name]) ([]) v hlt]
        refine ⟨steps, hsT, ?_, ?_⟩
        · have hne : probeSlot (Hash (s.names.getD v [])) steps ≠ a₀ := by
            intro hcon
            rw [hcon, hempty] at hslot
            exact Option.noConfusion hslot
          rw [htb', Function.update_noteq hne]
          exact hslot
        · intro j hj
          exact hmono _ (hpre j hj)
      · subst heq
        rw [show (s.names ++ [name]).getD s.names.length [] = name from by
          rw [List.getD_append_right (s.names) ([name]) ([]) s.names.length
            le_rfl, Nat.sub_self]
          rfl]
        refine ⟨e, heT, ?_, ?_⟩
        · rw [htb', Function.update_same]
        · intro j hj
          exact hmono _ (hocc j hj)
    · -- nodup
      dsimp only
      refine hinv.nodup.append (List.nodup_singleton name) ?_
      intro a ha hb
      rw [List.mem_singleton] at hb
      subst hb
      exact hnew ha
    · -- card
      dsimp only
      have hstep : (Finset.range hash_table_size).filter
          (fun a => (tb' a).isSome = true) =
          insert a₀ ((Finset.range hash_table_size).filter
            (fun a => (s.table a).isSome = true)) := by
        ext a
        simp only [Finset.mem_filter, Finset.mem_insert, Finset.mem_range]
        constructor
        · rintro ⟨haT, hs⟩
          by_cases ha0 : a = a₀
          · exact Or.inl ha0
          · rw [htb', Function.update_noteq ha0] at hs
            exact Or.inr ⟨haT, hs⟩
        · rintro (rfl | ⟨haT, hs⟩)
          · refine ⟨probeSlot_lt _ _, ?_⟩
            rw [htb', Function.update_same]
            rfl
          · exact ⟨haT, hmono a hs⟩
      rw [hstep, Finset.card_insert_of_not_mem (by
        intro hcon
        rw [Finset.mem_filter] at hcon
        rw [hempty] at hcon
        exact absurd hcon.2 (by simp)), hinv.card,
        List.length_append, List.length_singleton]

/-- Helper: the first-occurrence index of a present name is in range. -/
theorem specFirstIndex_lt (seen : List (List ℕ)) (name : List ℕ)
    (h : name ∈ seen) : specFirstIndex seen name < seen.length := by
  induction seen with
  | nil => cases h
  | cons m rest ih =>
    rw [specFirstIndex, List.length_cons]
    by_cases hm : m = name
    · rw [if_pos hm]
      omega
    · rw [if_neg hm]
      have : name ∈ rest := by
        rcases List.mem_cons.mp h with h1 | h1
        · exact absurd h1.symm hm
        · exact h1
      have := ih this
      omega

/-- Helper: the first-occurrence index points back at the name. -/
theorem specFirstIndex_getD (seen : List (List ℕ)) (name : List ℕ)
    (h : name ∈ seen) : seen.getD (specFirstIndex seen name) [] = name := by
  induction seen with
  | nil => cases h
  | cons m rest ih =>
    rw [specFirstIndex]
    by_cases hm : m = name
    · rw [if_pos hm]
      exact hm
    · rw [if_neg hm]
      have hmem : name ∈ rest := by
        rcases List.mem_cons.mp h with h1 | h1
        · exact absurd h1.symm hm
        · exact h1
      exact ih hmem

/-- Helper: one endpoint of the read loop refines the spec's
first-occurrence step and preserves the probing invariant. -/
theorem readName_spec (s : GraphState) (name : List ℕ) (hinv : GraphInv s)
    (hlen : name.length ≤ MAX_STRING - 1)
    (hroom : s.names.length < hash_table_size) :
    ∃ s', readName s name = some (s', (specStep s.names name).2) ∧
      s'.names = (specStep s.names name).1 ∧ GraphInv s' := by
  by_cases hmem : name ∈ s.names
  · have hidx : specFirstIndex s.names name < s.names.length :=
      specFirstIndex_lt s.names name hmem
    have hgd : s.names.getD (specFirstIndex s.names name) [] = name :=
      specFirstIndex_getD s.names name hmem
    refine ⟨s, ?_, ?_, hinv⟩
    · rw [readName, search_hit s hinv name _ hidx hgd, specStep, if_pos hmem]
    · rw [specStep, if_pos hmem]
  · have hmiss := search_miss s hinv name hmem hroom
    obtain ⟨s', hadd, hnames, hinv'⟩ := AddVertex_spec s name hinv hlen hmem hroom
    refine ⟨s', ?_, ?_, hinv'⟩
    · rw [readName, hmiss, specStep, if_neg hmem]
      exact hadd
    · rw [hnames, specStep, if_neg hmem]

/-- Helper: the edge-reading loop refines the spec's sequential
first-occurrence id assignment, keeping the probing invariant. -/
theorem VectorReadNames_refines :
    ∀ (stream : List (List ℕ)) (s : GraphState), GraphInv s →
      (∀ name ∈ stream, name.length ≤ MAX_STRING - 1) →
      s.names.length + stream.length ≤ hash_table_size →
      ∃ s', VectorReadNames s stream =
          some (s', (specAssign s.names stream).2) ∧
        s'.names = (specAssign s.names stream).1 ∧ GraphInv s' := by
  intro stream
  induction stream with
  | nil =>
    intro s hinv _ _
    exact ⟨s, rfl, rfl, hinv⟩
  | cons name rest ih =>
    intro s hinv hlen hcap
    rw [List.length_cons] at hcap
    obtain ⟨s1, hrd, hn1, hinv1⟩ := readName_spec s name hinv
      (hlen name (List.mem_cons_self _ _)) (by omega)
    have hlen1 : s1.names.length ≤ s.names.length + 1 := by
      rw [hn1, specStep]
      by_cases hmem : name ∈ s.names
      · rw [if_pos hmem]
        exact Nat.le_succ _
      · rw [if_neg hmem]
        dsimp only
        simp
    obtain ⟨s2, hrest, hn2, hinv2⟩ := ih s1 hinv1
      (fun nm hm => hlen nm (List.mem_cons_of_mem _ hm)) (by omega)
    refine ⟨s2, ?_, ?_, hinv2⟩
    · rw [VectorReadNames, hrd]
      try dsimp only
      rw [hrest, hn1]
      conv_rhs => rw [specAssign]
    · rw [hn2, hn1]
      conv_rhs => rw [specAssign]

/-- C7: on any stream of endpoint names (at most `MAX_STRING - 1`
characters each, NUL-free, and no longer than the hash-table capacity),
`VectorReadData`'s vertex indexing assigns ids sequentially 0, 1, 2, ... in
first-occurrence order: a name already present gets back the id of its
first occurrence and adds no vertex, and a fresh name receives the current
vertex count as its id. -/
theorem vertex_index_first_occurrence (stream : List (List ℕ))
    (hlen : ∀ name ∈ stream, name.length ≤ MAX_STRING - 1)
    (hnul : ∀ name ∈ stream, 0 ∉ name)
    (hcap : stream.length ≤ hash_table_size) :
    (VectorReadNames initialGraphState stream).map
        (fun r => (r.1.names, r.2)) = some (specAssign [] stream) := by
  have hinv0 : GraphInv initialGraphState := by
    constructor
    · intro a _
      rfl
    · intro a v h
      exact Option.noConfusion h
    · intro a b v ha _
      exact Option.noConfusion ha
    · intro v hv
      exact absurd hv (by simp [initialGraphState])
    · exact List.nodup_nil
    · simp [initialGraphState]
  obtain ⟨s', hrun, hnames, -⟩ := VectorReadNames_refines stream
    initialGraphState hinv0 hlen (by simpa [initialGraphState] using hcap)
  rw [hrun, Option.map_some', hnames]
  rfl

/-- Witness for C7 on the spec's own example: name stream [B, A, B, C]
(byte lists [66], [65], [66], [67]) gets ids 0, 1, 0, 2 with B = 0, A = 1,
C = 2. -/
theorem vertex_index_first_occurrence_witness :
    (∀ name ∈ [[66], [65], [66], [67]], List.length name ≤ MAX_STRING - 1) ∧
    (∀ name ∈ [[66], [65], [66], [67]], 0 ∉ name) ∧
    List.length [[66], [65], [66], [67]] ≤ hash_table_size ∧
    (specAssign [] [[66], [65], [66], [67]]).2 = [0, 1, 0, 2] ∧
    (specAssign [] [[66], [65], [66], [67]]).1 = [[66], [65], [67]] ∧
    (VectorReadNames initialGraphState [[66], [65], [66], [67]]).map
        (fun r => (r.1.names, r.2)) =
      some (specAssign [] [[66], [65], [66], [67]]) :=
  ⟨by decide, by decide, by decide, by decide, by decide,
    vertex_index_first_occurrence [[66], [65], [66], [67]]
      (by decide) (by decide) (by decide)⟩

end Rline
